import Mathlib

/-!
Verification of the post ingestion and ordering pipeline of a static blog
generator (sources: src/posts.rs, src/blogs.rs).  The Rust code is shallowly
embedded: pure metadata computations become Lean functions, fallible or
panicking code returns an explicit outcome value, and the in-place mutation
loops of Blog::load become structural recursions over lists that carry the
loop state explicitly.
-/

/-- Outcome of running a fallible Rust computation: a returned value (Ok),
a returned error value (Err, as produced by the `?` operator on a
`Result`/`Box<dyn Error>`), or a panic (unwrap on None/Err, out-of-bounds
indexing, or a panicking library call such as chrono's `from_ymd`). -/
inductive Outcome (α : Type) where
  | ok (val : α)
  | err (msg : String)
  | panicked
deriving Repr, DecidableEq

namespace Outcome

def map {α β : Type} (f : α → β) : Outcome α → Outcome β
  | .ok a => .ok (f a)
  | .err m => .err m
  | .panicked => .panicked

def isOk {α : Type} : Outcome α → Bool
  | .ok _ => true
  | _ => false

end Outcome

/-! ## Decimal digits: Rust's integer Display and str::parse -/

/-- The ASCII digit character for a value below ten. -/
def digitChar (n : Nat) : Char := Char.ofNat (48 + n)

/-- Fuel-driven digit extraction; with fuel above `n` it computes the
decimal digits of `n`, most significant first. -/
def natDigitsAux : Nat → Nat → List Char
  | 0, _ => []
  | fuel + 1, n =>
    if n < 10 then [digitChar n] else natDigitsAux fuel (n / 10) ++ [digitChar (n % 10)]

/-- Decimal digits of a natural number, most significant first; this is the
output of Rust's Display for unsigned integers. -/
def natDigits (n : Nat) : List Char := natDigitsAux (n + 1) n

/-- Fuel irrelevance of `natDigitsAux` once the fuel is above the value. -/
theorem natDigitsAux_stable : ∀ (n f1 f2 : Nat), n < f1 → n < f2 →
    natDigitsAux f1 n = natDigitsAux f2 n := by
  intro n
  induction n using Nat.strong_induction_on with
  | _ n ih =>
    intro f1 f2 h1 h2
    cases f1 with
    | zero => omega
    | succ g1 =>
      cases f2 with
      | zero => omega
      | succ g2 =>
        unfold natDigitsAux
        by_cases h10 : n < 10
        · rw [if_pos h10, if_pos h10]
        · rw [if_neg h10, if_neg h10,
            ih (n / 10) (Nat.div_lt_self (by omega) (by omega)) g1 g2 (by omega) (by omega)]

/-- The defining recurrence of `natDigits`. -/
theorem natDigits_eq (n : Nat) :
    natDigits n = if n < 10 then [digitChar n] else natDigits (n / 10) ++ [digitChar (n % 10)] := by
  show natDigitsAux (n + 1) n = _
  unfold natDigitsAux
  by_cases h10 : n < 10
  · rw [if_pos h10, if_pos h10]
  · rw [if_neg h10, if_neg h10]
    unfold natDigits
    rw [natDigitsAux_stable (n / 10) n (n / 10 + 1) (by omega) (by omega)]

/-- Decimal rendering of a natural number (Rust `{}` for unsigned values). -/
def natRepr (n : Nat) : String := ⟨natDigits n⟩

/-- Decimal rendering of a signed integer (Rust `{}` for i32). -/
def intRepr (y : Int) : String :=
  if y < 0 then "-" ++ natRepr (-y).toNat else natRepr y.toNat

/-- Zero padding to a minimum width, as Rust's `{:02}` / `{:04}` do for
non-negative numbers. -/
def zeroPad (w : Nat) (s : String) : String :=
  ⟨List.replicate (w - s.length) '0'⟩ ++ s

/-- Rust `{:02}` of an unsigned value. -/
def pad2 (n : Nat) : String := zeroPad 2 (natRepr n)

/-- Numeric value of an ASCII digit character, none for other characters. -/
def digitVal (c : Char) : Option Nat :=
  if 48 ≤ c.toNat ∧ c.toNat ≤ 57 then some (c.toNat - 48) else none

/-- Accumulating decimal parser over a character list; fails on the first
non-digit.  Mirrors the core loop of Rust's `str::parse` for integers. -/
def parseDigits : List Char → Nat → Option Nat
  | [], acc => some acc
  | c :: cs, acc =>
    match digitVal c with
    | some v => parseDigits cs (acc * 10 + v)
    | none => none

/-- Value of a non-empty all-digit character list. -/
def parseNat (cs : List Char) : Option Nat :=
  if cs.isEmpty then none else parseDigits cs 0

/-- Bounded unsigned parse: a non-empty digit list whose value is below the
given bound (overflow is a parse error in Rust). -/
def parseBounded (bound : Nat) (cs : List Char) : Option Nat :=
  match parseNat cs with
  | some v => if v < bound then some v else none
  | none => none

/-- Rust `str::parse::<u32>`: an optional leading plus sign, then one or more
decimal digits, value within u32 range. -/
def parseU32 (s : String) : Option Nat :=
  match s.data with
  | [] => none
  | c :: rest =>
    if c = '+' then parseBounded (2 ^ 32) rest
    else parseBounded (2 ^ 32) (c :: rest)

/-- Rust `str::parse::<i32>`: an optional sign, then one or more decimal
digits, value within i32 range. -/
def parseI32 (s : String) : Option Int :=
  match s.data with
  | [] => none
  | c :: rest =>
    if c = '-' then
      match parseNat rest with
      | some v => if v ≤ 2 ^ 31 then some (-(v : Int)) else none
      | none => none
    else if c = '+' then (parseBounded (2 ^ 31) rest).map (fun v => (v : Int))
    else (parseBounded (2 ^ 31) (c :: rest)).map (fun v => (v : Int))

/-! ## Splitting: Rust str::splitn and path file-stem extraction -/

/-- Split a character list at the first occurrence of `sep`: the part before
it and the part after it, or none when `sep` does not occur. -/
def splitFirst (sep : Char) : List Char → Option (List Char × List Char)
  | [] => none
  | c :: cs =>
    if c = sep then some ([], cs)
    else
      match splitFirst sep cs with
      | some (l, r) => some (c :: l, r)
      | none => none

/-- Rust `str::splitn(n, sep)` on a single-character separator: at most `n`
chunks, the last chunk keeping any remaining separators. -/
def splitn (n : Nat) (sep : Char) (cs : List Char) : List (List Char) :=
  match n with
  | 0 => []
  | 1 => [cs]
  | n + 2 =>
    match splitFirst sep cs with
    | none => [cs]
    | some (l, r) => l :: splitn (n + 1) sep r

/-- Index of the last '.' in a character list, if any. -/
def lastDotAux : List Char → Option Nat
  | [] => none
  | c :: cs =>
    match lastDotAux cs with
    | some i => some (i + 1)
    | none => if c = '.' then some 0 else none

/-- Index (counted from the start) of the last '.' at position ≥ 1 of a
character list, as used by Rust `Path::file_stem` / `set_extension`, which
never treat a leading dot as starting an extension. -/
def lastDotIdx (cs : List Char) : Option Nat :=
  match cs with
  | [] => none
  | _ :: rest => (lastDotAux rest).map (· + 1)

/-- Rust `Path::file_stem` on a bare file name: the part before the last
dot, where a dot at position 0 does not count and ".." is special-cased by
the standard library to have no extension. -/
def stemOf (name : String) : String :=
  if name = ".." then name
  else
    match lastDotIdx name.data with
    | some i => ⟨name.data.take i⟩
    | none => name

/-- Rust `PathBuf::set_extension("html")` applied to a bare file name, as
`Post::open` does to build the url: replace the extension (text after the
last non-leading dot) with "html".  An empty name or ".." has no file name /
extension position and is left unchanged. -/
def setExtensionHtml (name : String) : String :=
  if name = "" ∨ name = ".." then name else stemOf name ++ ".html"

/-! ## Timestamps: chrono from_ymd / and_hms / to_rfc3339 -/

/-- Leap year rule used by chrono's calendar. -/
def isLeapYear (y : Int) : Bool :=
  y % 4 == 0 && (y % 100 != 0 || y % 400 == 0)

/-- Number of days of a month (1..12) in year `y`. -/
def daysInMonth (y : Int) (m : Nat) : Nat :=
  if m = 1 then 31
  else if m = 2 then (if isLeapYear y then 29 else 28)
  else if m = 3 then 31
  else if m = 4 then 30
  else if m = 5 then 31
  else if m = 6 then 30
  else if m = 7 then 31
  else if m = 8 then 31
  else if m = 9 then 30
  else if m = 10 then 31
  else if m = 11 then 30
  else if m = 12 then 31
  else 0

/-- Validity domain of chrono's `NaiveDate::from_ymd`: a calendar-valid
(year, month, day) with the year inside chrono's representable range
(`MIN_YEAR = -262144`, `MAX_YEAR = 262143`); outside it the call panics. -/
def validDate (y : Int) (m d : Nat) : Bool :=
  (-262144 ≤ y && y ≤ 262143) && (1 ≤ m && m ≤ 12) && (1 ≤ d && d ≤ daysInMonth y m)

/-- Year field of an RFC 3339 rendering as chrono prints it: zero-padded to
four digits, an explicit sign outside 0..=9999. -/
def renderYear (y : Int) : String :=
  if y < 0 then "-" ++ zeroPad 4 (natRepr (-y).toNat)
  else if y ≥ 10000 then "+" ++ natRepr y.toNat
  else zeroPad 4 (natRepr y.toNat)

/-- RFC 3339 rendering of a UTC time of day `s` seconds after midnight of
(y, m, d), in the exact shape chrono's `to_rfc3339` prints for a
whole-second UTC datetime. -/
def renderClock (y : Int) (m d s : Nat) : String :=
  renderYear y ++ "-" ++ pad2 m ++ "-" ++ pad2 d ++ "T" ++
    pad2 (s / 3600) ++ ":" ++ pad2 (s % 3600 / 60) ++ ":" ++ pad2 (s % 60) ++ "+00:00"

/-- Plain rendering of the timestamp built by `build_post_time`: seconds are
below 60, so the time of day is 00:00:ss. -/
def timeStr (y : Int) (m d s : Nat) : String := renderClock y m d s

/-- Model of `build_post_time` (src/posts.rs): construct the RFC 3339 string
for midnight-plus-`seconds` of the given date.  chrono's `from_ymd` panics on
an invalid date and `and_hms(0, 0, seconds)` panics when `seconds ≥ 60`;
both panics are the `.panicked` outcome. -/
def build_post_time (year : Int) (month day seconds : Nat) : Outcome String :=
  if validDate year month day ∧ seconds < 60 then
    .ok (timeStr year month day seconds)
  else .panicked

/-! ## Data model: YamlHeader, Post, Manifest, Blog -/

/-- The structured header of a post file (src/posts.rs): serde derive
without `deny_unknown_fields`. -/
structure YamlHeader where
  title : String
  author : String
deriving Repr, DecidableEq

/-- Decode failure of the structured header (serde_yaml error on schema
mismatch). -/
inductive HeaderError where
  | missingField (f : String)
  | duplicateField (f : String)
deriving Repr, DecidableEq

/-- Helper for `decodeYamlHeader`: serde's generated visitor walks the
mapping entries, records the `title` and `author` values, rejects a
duplicate of either, and — having no `deny_unknown_fields` attribute —
silently skips every other key. -/
def decodeYamlHeaderCore : List (String × String) → Option String → Option String →
    Except HeaderError YamlHeader
  | [], some t, some a => .ok ⟨t, a⟩
  | [], none, _ => .error (.missingField "title")
  | [], some _, none => .error (.missingField "author")
  | (k, v) :: rest, t, a =>
    if k = "title" then
      match t with
      | some _ => .error (.duplicateField "title")
      | none => decodeYamlHeaderCore rest (some v) a
    else if k = "author" then
      match a with
      | some _ => .error (.duplicateField "author")
      | none => decodeYamlHeaderCore rest t (some v)
    else decodeYamlHeaderCore rest t a

/-- Model of `serde_yaml::from_str::<YamlHeader>` (src/posts.rs line 50) at
the level of the already-tokenized YAML mapping: a list of key/scalar
pairs.  Unknown keys are ignored because `YamlHeader` carries no
`deny_unknown_fields` attribute (contrast `Manifest` in src/blogs.rs, which
does). -/
def decodeYamlHeader (fields : List (String × String)) : Except HeaderError YamlHeader :=
  decodeYamlHeaderCore fields none none

/-- One blog entry (struct `Post`, src/posts.rs).  `filename` is the
remainder of the on-disk file name after the date segments (slug plus
original extension). -/
structure Post where
  filename : String
  title : String
  author : String
  year : Int
  show_year : Bool
  month : Nat
  day : Nat
  contents : String
  url : String
  published : String
  updated : String
deriving Repr, DecidableEq

/-- Blog-level configuration (struct `Manifest`, src/blogs.rs). -/
structure Manifest where
  title : String
  index_title : String
deriving Repr, DecidableEq

/-- The assembled blog aggregate (struct `Blog`, src/blogs.rs). -/
structure Blog where
  title : String
  index_title : String
  posts : List Post
deriving Repr, DecidableEq

/-! ## Post::open -/

/-- The filename-metadata step of `Post::open` (src/posts.rs lines 33-39)
applied to the file name: `splitn(4, "-")`, then `.unwrap()` on each of the
four chunks and `.unwrap()` on each numeric parse.  Every one of these
unwraps panics (rather than returning an error value) when the chunk is
missing or fails to parse. -/
def parseFilenameMeta (filename : String) : Outcome (Int × Nat × Nat × String) :=
  match splitn 4 '-' filename.data with
  | c0 :: rest0 =>
    match parseI32 ⟨c0⟩ with
    | none => .panicked
    | some year =>
      match rest0 with
      | [] => .panicked
      | c1 :: rest1 =>
        match parseU32 ⟨c1⟩ with
        | none => .panicked
        | some month =>
          match rest1 with
          | [] => .panicked
          | c2 :: rest2 =>
            match parseU32 ⟨c2⟩ with
            | none => .panicked
            | some day =>
              match rest2 with
              | [] => .panicked
              | c3 :: _ => .ok (year, month, day, ⟨c3⟩)
  | [] => .panicked

/-- Rust `{:04}` of an i32 (used for the year in the url): the sign is part
of the padded width. -/
def pad4Int (y : Int) : String :=
  if y < 0 then "-" ++ zeroPad 3 (natRepr (-y).toNat) else zeroPad 4 (natRepr y.toNat)

/-- Model of `Post::open` (src/posts.rs) downstream of the I/O: the file
name is already extracted from the path, the YAML header is given as its
tokenized mapping, and the Markdown body is abstracted by its rendered HTML
(`comrak::markdown_to_html` is an opaque external transform that no claim
touches).  The steps in source order: filename metadata (panicking
unwraps), header decode (error value via `?`), url construction, and the
initial `published`/`updated` timestamps at second 0. -/
def postOpen (fname : String) (headerFields : List (String × String))
    (bodyHtml : String) : Outcome Post :=
  match parseFilenameMeta fname with
  | .panicked => .panicked
  | .err m => .err m
  | .ok (year, month, day, slugExt) =>
    match decodeYamlHeader headerFields with
    | .error _ => .err "header decode error"
    | .ok h =>
      let url := pad4Int year ++ "/" ++ pad2 month ++ "/" ++ pad2 day ++ "/" ++
        setExtensionHtml slugExt
      match build_post_time year month day 0 with
      | .panicked => .panicked
      | .err m => .err m
      | .ok published =>
        .ok { filename := slugExt, title := h.title, author := h.author,
              year := year, show_year := false, month := month, day := day,
              contents := bodyHtml, url := url,
              published := published, updated := published }

/-- Model of `Post::set_updated` (src/posts.rs lines 100-102): rebuild the
updated timestamp from the post's own date with the given seconds value;
panics (through `build_post_time`) when that construction is invalid. -/
def set_updated (p : Post) (seconds : Nat) : Outcome Post :=
  (build_post_time p.year p.month p.day seconds).map (fun u => { p with updated := u })

/-! ## Blog::load -/

/-- Byte-lexicographic strict comparison of two character lists; on valid
UTF-8 this coincides with Rust's `Ord` for `String`, which compares the
UTF-8 bytes. -/
def lexLt : List Char → List Char → Bool
  | [], [] => false
  | [], _ :: _ => true
  | _ :: _, [] => false
  | a :: as, b :: bs =>
    if a.toNat < b.toNat then true
    else if b.toNat < a.toNat then false
    else lexLt as bs

/-- Insert a post into an already sorted list, placed after every element
whose key is not strictly greater; together with a left fold this computes
the same list as Rust's stable ascending `sort_by_key`. -/
def insertSorted (key : Post → String) (x : Post) : List Post → List Post
  | [] => [x]
  | y :: ys =>
    if lexLt (key x).data (key y).data then x :: y :: ys
    else y :: insertSorted key x ys

/-- Stable ascending sort by a string key, modelling `Vec::sort_by_key`
(stable by documentation; any stable sort produces this same list). -/
def sortByKey (key : Post → String) (l : List Post) : List Post :=
  l.foldl (fun acc x => insertSorted key x acc) []

/-- The sort key of `Blog::load` (src/blogs.rs lines 41-46):
`format!("{}-{:02}-{:02}-{}", post.year, post.month, post.day, post.title)`.
Note that the last component is the post's header title, not its
filename-derived slug. -/
def loadSortKey (p : Post) : String :=
  intRepr p.year ++ "-" ++ pad2 p.month ++ "-" ++ pad2 p.day ++ "-" ++ p.title

/-- The year-display loop body of `Blog::load` (src/blogs.rs lines 51-53)
carried out over the tail of the sorted list: each post's `show_year` is set
to whether its year differs from the year of the post immediately before
it. -/
def showYearLoop (prevYear : Int) : List Post → List Post
  | [] => []
  | p :: rest => { p with show_year := prevYear != p.year } :: showYearLoop p.year rest

/-- The year-display pass of `Blog::load` (src/blogs.rs lines 50-53): the
first post's `show_year` is set to true unconditionally, then the loop runs
over the remaining indices. -/
def showYearPass : List Post → List Post
  | [] => []
  | p :: rest => { p with show_year := true } :: showYearLoop p.year rest

/-- The timestamp-disambiguation loop of `Blog::load` (src/blogs.rs lines
56-63), with the state made explicit: `anchor` is the post at index
`last_matching_updated` (never mutated after being chosen, so carrying it by
value is exact) and `off` is `i - last_matching_updated` for the current
index `i`.  A matching post is rewritten through `set_updated` (which can
panic); a non-matching post becomes the new anchor with offset 1. -/
def updateLoop (anchor : Post) (off : Nat) : List Post → Outcome (List Post)
  | [] => .ok []
  | p :: rest =>
    if p.updated = anchor.updated then
      match set_updated p off with
      | .ok p2 => (updateLoop anchor (off + 1) rest).map (fun out => p2 :: out)
      | .err m => .err m
      | .panicked => .panicked
    else
      (updateLoop p 1 rest).map (fun out => p :: out)

/-- The timestamp-disambiguation pass of `Blog::load` (src/blogs.rs lines
55-63): `last_matching_updated` starts at 0 and the loop covers indices 1
onward. -/
def updatePass : List Post → Outcome (List Post)
  | [] => .ok []
  | p :: rest => (updateLoop p 1 rest).map (fun out => p :: out)

/-- Model of `Blog::load` (src/blogs.rs) downstream of the I/O: the
manifest is already decoded and the directory's posts already parsed (each
file-read or parse failure would have aborted `load` earlier through `?`).
In source order: sort by `loadSortKey` and reverse; set `posts[0].show_year`
— an out-of-bounds panic when no posts exist — and run the year loop; run
the timestamp-disambiguation loop; wrap the manifest fields and the final
list. -/
def blogLoad (manifest : Manifest) (posts : List Post) : Outcome Blog :=
  match (sortByKey loadSortKey posts).reverse with
  | [] => .panicked
  | p :: rest =>
    (updatePass (showYearPass (p :: rest))).map (fun final =>
      { title := manifest.title, index_title := manifest.index_title, posts := final })

/-- Components of `PathBuf::new()`: the freshly constructed path is empty
and has no components. -/
def pathBufNew : List String := []

/-- Model of `Blog::path_back_to_root` (src/blogs.rs lines 80-82): map each
component of a freshly-constructed empty `PathBuf` to "../" and collect.
The result is represented by its list of components; collecting an empty
iterator yields the empty path, whose display form is the empty string. -/
def path_back_to_root (_blog : Blog) : List String :=
  pathBufNew.map (fun _ => "../")

/-! ## Specification-side definitions, written from the claims' wording -/

/-- Read back the fields of an RFC 3339 UTC timestamp string: sign-aware
year, month, day, and the second of day.  Used only to give meaning to the
specification's "timestamp + k seconds". -/
def parseTimeCore (neg : Bool) (cs : List Char) : Option (Int × Nat × Nat × Nat) :=
  match splitFirst '-' cs with
  | none => none
  | some (ys, r1) =>
  match parseNat ys with
  | none => none
  | some y =>
  match splitFirst '-' r1 with
  | none => none
  | some (ms, r2) =>
  match parseNat ms with
  | none => none
  | some mo =>
  match splitFirst 'T' r2 with
  | none => none
  | some (ds, r3) =>
  match parseNat ds with
  | none => none
  | some d =>
  match splitFirst ':' r3 with
  | none => none
  | some (hrs, r4) =>
  match parseNat hrs with
  | none => none
  | some hh =>
  match splitFirst ':' r4 with
  | none => none
  | some (mins, r5) =>
  match parseNat mins with
  | none => none
  | some mi =>
  match splitFirst '+' r5 with
  | none => none
  | some (ss, _tz) =>
  match parseNat ss with
  | none => none
  | some s2 => some (if neg then -(y : Int) else (y : Int), mo, d, hh * 3600 + mi * 60 + s2)

/-- Front end of `parseTimeCore`: strip an explicit year sign. -/
def parseTime (s : String) : Option (Int × Nat × Nat × Nat) :=
  match s.data with
  | [] => none
  | c :: rest =>
    if c = '-' then parseTimeCore true rest
    else if c = '+' then parseTimeCore false rest
    else parseTimeCore false (c :: rest)

/-- The specification's "updatedAt + k seconds" on a rendered timestamp:
decode the timestamp, advance the second of day by `k`, re-render (with
carry into minutes and hours).  A string that is not a rendered timestamp
is left unchanged (never reached on pipeline data). -/
def addSecondsSpec (t : String) (k : Nat) : String :=
  match parseTime t with
  | some (y, m, d, s) => renderClock y m d (s + k)
  | none => t

/-- Modelled from the claim's wording (C7): the disambiguation scan keeps
the original `updatedAt` value of the post at `lastMatchingIndex` and, on a
match, assigns that value advanced by `i - lastMatchingIndex` seconds;
otherwise the current post re-anchors.  `anchorOrig` is the original value
at the anchor and `off` is `i - lastMatchingIndex`. -/
def specLoop (anchorOrig : String) (off : Nat) : List Post → List Post
  | [] => []
  | p :: rest =>
    if p.updated = anchorOrig then
      { p with updated := addSecondsSpec anchorOrig off } :: specLoop anchorOrig (off + 1) rest
    else p :: specLoop p.updated 1 rest

/-- Modelled from the claim's wording (C7): `lastMatchingIndex` starts at 0
and the scan runs from index 1 to the end. -/
def specDisambig : List Post → List Post
  | [] => []
  | p :: rest => p :: specLoop p.updated 1 rest

/-- The sort key asserted by claim C1: the composite string
"year-month-day-slug" where the slug is the filename-derived identifier
(the `filename` field of the parsed post). -/
def slugSortKey (p : Post) : String :=
  intRepr p.year ++ "-" ++ pad2 p.month ++ "-" ++ pad2 p.day ++ "-" ++ p.filename

/-- The display order asserted by claim C1: sort ascending by
`slugSortKey`, then reverse the whole sequence. -/
def specSlugOrder (posts : List Post) : List Post :=
  (sortByKey slugSortKey posts).reverse

/-- The composite key of the amended claim C1, written from the spec's
formula with the header title in place of the slug:
"{year}-{month:02}-{day:02}-{title}". -/
def specTitleKey (p : Post) : String :=
  intRepr p.year ++ "-" ++ pad2 p.month ++ "-" ++ pad2 p.day ++ "-" ++ p.title

/-- The display order of the amended claim C1: sort ascending by
`specTitleKey`, then reverse the whole sequence. -/
def specTitleOrder (posts : List Post) : List Post :=
  (sortByKey specTitleKey posts).reverse

/-- A post as `Post::open` hands it to the assembler: its `updated` field is
exactly the timestamp built from its own date at second 0 (so in particular
its date is calendar-valid). -/
def OrigShaped (p : Post) : Prop :=
  build_post_time p.year p.month p.day 0 = .ok p.updated

instance (p : Post) : Decidable (OrigShaped p) := by
  unfold OrigShaped; infer_instance

/-- Claim C5's failure condition on a file name: fewer than four
hyphen-delimited segments, or one of the first three segments not parseable
as the required integer type. -/
def malformedFilename (f : String) : Bool :=
  match splitn 4 '-' f.data with
  | [c0, c1, c2, _c3] =>
    (parseI32 ⟨c0⟩).isNone || (parseU32 ⟨c1⟩).isNone || (parseU32 ⟨c2⟩).isNone
  | _ => true

/-- Value of the first occurrence of a key in a YAML mapping. -/
def firstVal (k : String) (fields : List (String × String)) : Option String :=
  (fields.find? (fun kv => kv.1 = k)).map (fun kv => kv.2)

/-- Number of occurrences of a key in a YAML mapping. -/
def countKey (k : String) (fields : List (String × String)) : Nat :=
  fields.countP (fun kv => kv.1 = k)

/-- Example post as the parser would produce it: date from the filename,
title and author from the header, both timestamps at second 0 of the date,
`show_year` false.  Used to instantiate concrete inputs. -/
def mkPost (y : Int) (m d : Nat) (title slug : String) : Post :=
  { filename := slug, title := title, author := "A", year := y, show_year := false,
    month := m, day := d, contents := "", url := "",
    published := timeStr y m d 0, updated := timeStr y m d 0 }

/-- Example parsed post: 2021-05-05, title "a". -/
def exPostA : Post := mkPost 2021 5 5 "a" "a.md"

/-- Example parsed post: 2021-05-05, title "b". -/
def exPostB : Post := mkPost 2021 5 5 "b" "b.md"

/-- Example parsed post: 2020-01-01, title "c". -/
def exPostC : Post := mkPost 2020 1 1 "c" "c.md"

/-- The blog aggregate `Blog::load` produces from the three example posts:
descending order [b, a, c], year flags [true, false, true], and the second
post's timestamp bumped by one second. -/
def exBlogABC : Blog :=
  ⟨"t", "i", [{ exPostB with show_year := true },
    { exPostA with show_year := false, updated := "2021-05-05T00:00:01+00:00" },
    { exPostC with show_year := true }]⟩

/-- Example final-order post list for the disambiguation pass: three posts
sharing the date 2021-05-05 followed by two sharing 2021-05-04. -/
def exRun : List Post :=
  [mkPost 2021 5 5 "t1" "t1.md", mkPost 2021 5 5 "t2" "t2.md", mkPost 2021 5 5 "t3" "t3.md",
    mkPost 2021 5 4 "u1" "u1.md", mkPost 2021 5 4 "u2" "u2.md"]

/-- The list the disambiguation pass produces from `exRun`: seconds 0, 1, 2
on the first run, then the anchor resets and the second run gets 0, 1. -/
def exRunOut : List Post :=
  [mkPost 2021 5 5 "t1" "t1.md",
    { mkPost 2021 5 5 "t2" "t2.md" with updated := "2021-05-05T00:00:01+00:00" },
    { mkPost 2021 5 5 "t3" "t3.md" with updated := "2021-05-05T00:00:02+00:00" },
    mkPost 2021 5 4 "u1" "u1.md",
    { mkPost 2021 5 4 "u2" "u2.md" with updated := "2021-05-04T00:00:01+00:00" }]

/-- Example post whose header title "z" and filename-derived slug "a.md"
order oppositely. -/
def exPostX : Post := mkPost 2021 5 5 "z" "a.md"

/-- Example post whose header title "a" and filename-derived slug "b.md"
order oppositely. -/
def exPostY : Post := mkPost 2021 5 5 "a" "b.md"

/-- The blog aggregate `Blog::load` produces from the two crossed example
posts: the post with the higher title comes first. -/
def exBlogXY : Blog :=
  ⟨"t", "i", [{ exPostX with show_year := true },
    { exPostY with updated := "2021-05-05T00:00:01+00:00" }]⟩

/-- The date triple of a post. -/
def dateOf (p : Post) : Int × Nat × Nat := (p.year, p.month, p.day)

/-- Descending-order relation used for the reversed sorted list: the
earlier post's key is not lexicographically below the later one's. -/
def keyDesc (key : Post → String) (a b : Post) : Prop :=
  lexLt (key a).data (key b).data = false

/-- Ascending-order relation of the stable sort: the later post's key is
not lexicographically below the earlier one's. -/
def keyAsc (key : Post → String) (a b : Post) : Prop :=
  lexLt (key b).data (key a).data = false

/-- The fields of a post that the assembler's fix-up passes never rewrite
(everything except `show_year` and `updated`): what is left identifies a
post across the assembly. -/
structure PostSkel where
  filename : String
  title : String
  author : String
  year : Int
  month : Nat
  day : Nat
  contents : String
  url : String
  published : String
deriving Repr, DecidableEq

/-- Projection dropping the two fields the assembler's fix-up passes
rewrite. -/
def skel (p : Post) : PostSkel :=
  ⟨p.filename, p.title, p.author, p.year, p.month, p.day, p.contents, p.url, p.published⟩

/-- Projection dropping only `show_year` (the field the year pass
rewrites). -/
def noSY (p : Post) :
    String × String × String × Int × Nat × Nat × String × String × String × String :=
  (p.filename, p.title, p.author, p.year, p.month, p.day, p.contents, p.url, p.published,
    p.updated)

/-! ## Base lemmas: characters and decimal round-trips -/

theorem charEqOfToNat {c d : Char} (h : c.toNat = d.toNat) : c = d :=
  Char.eq_of_val_eq (UInt32.ext h)

theorem toNat_digitChar {n : Nat} (h : n < 10) : (digitChar n).toNat = 48 + n := by
  interval_cases n <;> decide

theorem digitVal_digitChar {n : Nat} (h : n < 10) : digitVal (digitChar n) = some n := by
  unfold digitVal
  rw [toNat_digitChar h, if_pos (by omega)]
  congr 1
  omega

theorem natDigits_ne_nil (n : Nat) : natDigits n ≠ [] := by
  rw [natDigits_eq]
  split <;> simp

theorem mem_natDigits_digit {n : Nat} {c : Char} (h : c ∈ natDigits n) :
    48 ≤ c.toNat ∧ c.toNat ≤ 57 := by
  induction n using Nat.strong_induction_on with
  | _ n ih =>
    rw [natDigits_eq] at h
    split at h
    case isTrue h10 =>
      simp only [List.mem_singleton] at h
      subst h
      rw [toNat_digitChar h10]
      omega
    case isFalse h10 =>
      rw [List.mem_append] at h
      rcases h with h | h
      · exact ih (n / 10) (Nat.div_lt_self (by omega) (by omega)) h
      · simp only [List.mem_singleton] at h
        subst h
        rw [toNat_digitChar (Nat.mod_lt _ (by omega))]
        omega

theorem parseDigits_append (xs ys : List Char) (acc : Nat) :
    parseDigits (xs ++ ys) acc = (parseDigits xs acc).bind (fun a => parseDigits ys a) := by
  induction xs generalizing acc with
  | nil => simp [parseDigits]
  | cons c cs ih =>
    cases hdv : digitVal c with
    | none => simp [parseDigits, hdv]
    | some v => simp [parseDigits, hdv, ih]

theorem parseDigits_natDigits (n : Nat) :
    ∀ acc, parseDigits (natDigits n) acc = some (acc * 10 ^ (natDigits n).length + n) := by
  induction n using Nat.strong_induction_on with
  | _ n ih =>
    intro acc
    rw [natDigits_eq]
    split
    case isTrue h10 =>
      simp only [parseDigits, digitVal_digitChar h10, List.length_singleton, pow_one]
    case isFalse h10 =>
      rw [parseDigits_append, ih (n / 10) (Nat.div_lt_self (by omega) (by omega)) acc]
      simp only [Option.some_bind, parseDigits, digitVal_digitChar (Nat.mod_lt _ (by omega)),
        List.length_append, List.length_singleton]
      congr 1
      have hdm : n / 10 * 10 + n % 10 = n := by omega
      have hstep : (acc * 10 ^ (natDigits (n / 10)).length + n / 10) * 10 + n % 10 =
          acc * (10 ^ (natDigits (n / 10)).length * 10) + (n / 10 * 10 + n % 10) := by ring
      rw [hstep, hdm, ← pow_succ]

theorem parseNat_natDigits (n : Nat) : parseNat (natDigits n) = some n := by
  unfold parseNat
  rw [if_neg (by simp [natDigits_ne_nil]), parseDigits_natDigits]
  simp

theorem parseDigits_zeros (k : Nat) : parseDigits (List.replicate k '0') 0 = some 0 := by
  induction k with
  | zero => simp [parseDigits]
  | succ k ih =>
    rw [List.replicate_succ]
    simp only [parseDigits, show digitVal '0' = some 0 from by decide]
    simpa using ih

theorem parseNat_pad (k n : Nat) :
    parseNat (List.replicate k '0' ++ natDigits n) = some n := by
  unfold parseNat
  rw [if_neg (by simp [natDigits_ne_nil]), parseDigits_append, parseDigits_zeros]
  simp only [Option.some_bind]
  rw [parseDigits_natDigits]
  simp

theorem zeroPad_natRepr_data (w n : Nat) :
    (zeroPad w (natRepr n)).data = List.replicate (w - (natDigits n).length) '0' ++ natDigits n :=
  rfl

theorem mem_zeroPad_digit {w n : Nat} {c : Char} (h : c ∈ (zeroPad w (natRepr n)).data) :
    48 ≤ c.toNat ∧ c.toNat ≤ 57 := by
  rw [zeroPad_natRepr_data, List.mem_append] at h
  rcases h with h | h
  · rw [List.eq_of_mem_replicate h]
    decide
  · exact mem_natDigits_digit h

theorem parseNat_zeroPad (w n : Nat) : parseNat (zeroPad w (natRepr n)).data = some n := by
  rw [zeroPad_natRepr_data]
  exact parseNat_pad _ n

/-! ## Base lemmas: splitFirst and splitn -/

theorem splitFirst_not_mem {sep : Char} {A : List Char} (h : sep ∉ A) :
    splitFirst sep A = none := by
  induction A with
  | nil => rfl
  | cons c cs ih =>
    simp only [List.mem_cons, not_or] at h
    have hc : ¬c = sep := fun hc => h.1 hc.symm
    simp only [splitFirst, if_neg hc, ih h.2]

theorem splitFirst_append {sep : Char} {A : List Char} (h : sep ∉ A) (R : List Char) :
    splitFirst sep (A ++ sep :: R) = some (A, R) := by
  induction A with
  | nil => simp [splitFirst]
  | cons c cs ih =>
    simp only [List.mem_cons, not_or] at h
    have hc : ¬c = sep := fun hc => h.1 hc.symm
    simp only [List.cons_append, splitFirst, List.append_eq, ih h.2, if_neg hc]

theorem append_sep_inj {sep : Char} {A B X Y : List Char}
    (hA : sep ∉ A) (hB : sep ∉ B) (h : A ++ sep :: X = B ++ sep :: Y) : A = B ∧ X = Y := by
  induction A generalizing B with
  | nil =>
    cases B with
    | nil => simpa using h
    | cons b bs =>
      simp only [List.nil_append, List.cons_append, List.cons.injEq] at h
      exact absurd (h.1 ▸ List.mem_cons_self b bs) (h.1 ▸ hB)
  | cons a as ih =>
    cases B with
    | nil =>
      simp only [List.cons_append, List.nil_append, List.cons.injEq] at h
      exact absurd (h.1 ▸ List.mem_cons_self a as) (fun hm => hA (h.1 ▸ hm))
    | cons b bs =>
      simp only [List.cons_append, List.cons.injEq] at h
      obtain ⟨hab, hrest⟩ := h
      simp only [List.mem_cons, not_or] at hA hB
      obtain ⟨hAB, hXY⟩ := ih hA.2 hB.2 hrest
      exact ⟨by rw [hab, hAB], hXY⟩

/-! ## Base lemmas: lexicographic comparison -/

theorem lexLt_cons_iff {x y : Char} {xs ys : List Char} :
    lexLt (x :: xs) (y :: ys) = true ↔
      x.toNat < y.toNat ∨ (x.toNat = y.toNat ∧ lexLt xs ys = true) := by
  simp only [lexLt]
  by_cases h1 : x.toNat < y.toNat
  · simp [h1]
  · by_cases h2 : y.toNat < x.toNat
    · simp only [if_neg h1, if_pos h2]
      constructor
      · intro hf
        cases hf
      · intro hor
        omega
    · simp only [if_neg h1, if_neg h2]
      constructor
      · intro hlt
        exact Or.inr ⟨by omega, hlt⟩
      · intro hor
        rcases hor with hlt | ⟨_, hlt⟩
        · omega
        · exact hlt

theorem lexLt_irrefl (a : List Char) : lexLt a a = false := by
  induction a with
  | nil => rfl
  | cons c cs ih => simp [lexLt, ih]

theorem lexLt_trans {a b c : List Char} (h1 : lexLt a b = true) (h2 : lexLt b c = true) :
    lexLt a c = true := by
  induction a generalizing b c with
  | nil =>
    cases b with
    | nil => cases h1
    | cons y ys =>
      cases c with
      | nil => cases h2
      | cons z zs => rfl
  | cons x xs ih =>
    cases b with
    | nil => cases h1
    | cons y ys =>
      cases c with
      | nil => cases h2
      | cons z zs =>
        rw [lexLt_cons_iff] at h1 h2 ⊢
        rcases h1 with hlt1 | ⟨heq1, hrec1⟩
        · rcases h2 with hlt2 | ⟨heq2, _⟩
          · exact Or.inl (by omega)
          · exact Or.inl (by omega)
        · rcases h2 with hlt2 | ⟨heq2, hrec2⟩
          · exact Or.inl (by omega)
          · exact Or.inr ⟨by omega, ih hrec1 hrec2⟩

theorem lexLt_eq_of_not {a b : List Char} (h1 : lexLt a b = false) (h2 : lexLt b a = false) :
    a = b := by
  induction a generalizing b with
  | nil =>
    cases b with
    | nil => rfl
    | cons y ys => cases h1
  | cons x xs ih =>
    cases b with
    | nil => cases h2
    | cons y ys =>
      have hxy : x.toNat = y.toNat := by
        simp only [lexLt] at h1 h2
        by_cases hlt : x.toNat < y.toNat
        · rw [if_pos hlt] at h1
          cases h1
        · by_cases hgt : y.toNat < x.toNat
          · rw [if_pos hgt] at h2
            cases h2
          · omega
      have hx : x = y := charEqOfToNat hxy
      subst hx
      simp only [lexLt, Nat.lt_irrefl, if_neg (by omega : ¬x.toNat < x.toNat)] at h1 h2
      rw [ih h1 h2]

theorem lexLt_append_cancel (P a b : List Char) : lexLt (P ++ a) (P ++ b) = lexLt a b := by
  induction P with
  | nil => rfl
  | cons c P ih =>
    simp only [List.cons_append, lexLt, Nat.lt_irrefl, if_neg (by omega : ¬c.toNat < c.toNat)]
    exact ih

theorem lexLt_sandwich {P sa sb k : List Char}
    (h1 : lexLt k (P ++ sa) = false) (h2 : lexLt (P ++ sb) k = false) :
    ∃ s, k = P ++ s := by
  induction P generalizing k with
  | nil => exact ⟨k, rfl⟩
  | cons c P ih =>
    cases k with
    | nil => cases h1
    | cons x xs =>
      have hxc : x.toNat = c.toNat := by
        simp only [List.cons_append, lexLt] at h1 h2
        by_cases hy : x.toNat < c.toNat
        · rw [if_pos hy] at h1
          cases h1
        · by_cases hz : c.toNat < x.toNat
          · rw [if_pos hz] at h2
            cases h2
          · omega
      have hx : x = c := charEqOfToNat hxc
      subst hx
      simp only [List.cons_append, lexLt, Nat.lt_irrefl,
        if_neg (by omega : ¬x.toNat < x.toNat)] at h1 h2
      obtain ⟨s, hs⟩ := ih h1 h2
      exact ⟨s, by rw [hs, List.cons_append]⟩

/-! ## Lemmas about splitn and the sign-free integer parses -/

theorem splitn_length_le : ∀ (n : Nat) (sep : Char) (cs : List Char),
    (splitn n sep cs).length ≤ n
  | 0, _, _ => by simp [splitn]
  | 1, _, cs => by simp [splitn]
  | n + 2, sep, cs => by
    unfold splitn
    cases hs : splitFirst sep cs with
    | none => simp
    | some lr =>
      obtain ⟨l, r⟩ := lr
      have := splitn_length_le (n + 1) sep r
      simp only [List.length_cons]
      omega

theorem splitn4_eq {Y M D : List Char} (rest : List Char)
    (hY : '-' ∉ Y) (hM : '-' ∉ M) (hD : '-' ∉ D) :
    splitn 4 '-' (Y ++ '-' :: (M ++ '-' :: (D ++ '-' :: rest))) = [Y, M, D, rest] := by
  show splitn (2 + 2) '-' _ = _
  unfold splitn
  rw [splitFirst_append hY]
  show (Y :: splitn (1 + 2) '-' _) = _
  unfold splitn
  rw [splitFirst_append hM]
  show (Y :: M :: splitn (0 + 2) '-' _) = _
  unfold splitn
  rw [splitFirst_append hD]
  rfl

theorem head_digit_of_eq {w n : Nat} {c : Char} {cs : List Char}
    (h : (zeroPad w (natRepr n)).data = c :: cs) : 48 ≤ c.toNat ∧ c.toNat ≤ 57 :=
  mem_zeroPad_digit (by rw [h]; exact List.mem_cons_self c cs)

theorem not_mem_zeroPad {sep : Char} (w n : Nat) (hsep : sep.toNat < 48 ∨ 57 < sep.toNat) :
    sep ∉ (zeroPad w (natRepr n)).data := by
  intro hmem
  have := mem_zeroPad_digit hmem
  omega

theorem parseBounded_pad {bound : Nat} (w n : Nat) (hn : n < bound) :
    parseBounded bound (zeroPad w (natRepr n)).data = some n := by
  unfold parseBounded
  rw [parseNat_zeroPad]
  show (if n < bound then some n else none) = some n
  rw [if_pos hn]

theorem parseU32_zeroPad (w n : Nat) (hn : n < 2 ^ 32) :
    parseU32 (zeroPad w (natRepr n)) = some n := by
  obtain ⟨c, cs, hc⟩ := List.exists_cons_of_ne_nil
    (show (zeroPad w (natRepr n)).data ≠ [] by
      rw [zeroPad_natRepr_data]
      simp [natDigits_ne_nil])
  have hdig := head_digit_of_eq hc
  have hplus : ¬c = '+' := fun he => by rw [he] at hdig; revert hdig; decide
  unfold parseU32
  rw [hc]
  show (if c = '+' then parseBounded (2 ^ 32) cs else parseBounded (2 ^ 32) (c :: cs)) = some n
  rw [if_neg hplus, ← hc]
  exact parseBounded_pad w n hn

theorem parseI32_zeroPad (w n : Nat) (hn : n < 2 ^ 31) :
    parseI32 (zeroPad w (natRepr n)) = some (n : Int) := by
  obtain ⟨c, cs, hc⟩ := List.exists_cons_of_ne_nil
    (show (zeroPad w (natRepr n)).data ≠ [] by
      rw [zeroPad_natRepr_data]
      simp [natDigits_ne_nil])
  have hdig := head_digit_of_eq hc
  have hminus : ¬c = '-' := fun he => by rw [he] at hdig; revert hdig; decide
  have hplus : ¬c = '+' := fun he => by rw [he] at hdig; revert hdig; decide
  unfold parseI32
  rw [hc]
  show (if c = '-' then
      (match parseNat cs with
       | some v => if v ≤ 2 ^ 31 then some (-(v : Int)) else none
       | none => none)
    else if c = '+' then (parseBounded (2 ^ 31) cs).map (fun v => (v : Int))
    else (parseBounded (2 ^ 31) (c :: cs)).map (fun v => (v : Int))) = some (n : Int)
  rw [if_neg hminus, if_neg hplus, ← hc, parseBounded_pad w n hn]
  rfl

/-! ## Lemmas about the file-stem computation -/

theorem lastDotAux_not_mem {B : List Char} (hB : '.' ∉ B) : lastDotAux B = none := by
  induction B with
  | nil => rfl
  | cons c cs ih =>
    simp only [List.mem_cons, not_or] at hB
    have hc : ¬c = '.' := fun hc => hB.1 hc.symm
    simp only [lastDotAux, ih hB.2, if_neg hc]

theorem lastDotAux_append_dot (A : List Char) {B : List Char} (hB : '.' ∉ B) :
    lastDotAux (A ++ '.' :: B) = some A.length := by
  induction A with
  | nil => simp [lastDotAux, lastDotAux_not_mem hB]
  | cons c cs ih => simp [lastDotAux, ih]

theorem stemOf_slug_ext (slug ext : String) (hs : slug ≠ "") (he : ext ≠ "")
    (hdot : '.' ∉ ext.data) : stemOf (slug ++ "." ++ ext) = slug := by
  have hd : (slug ++ "." ++ ext).data = slug.data ++ '.' :: ext.data := by
    show slug.data ++ ['.'] ++ ext.data = slug.data ++ '.' :: ext.data
    simp
  obtain ⟨c0, srest, hslug⟩ := List.exists_cons_of_ne_nil
    (show slug.data ≠ [] from fun hnil => hs (by
      have hsl : slug = ⟨slug.data⟩ := rfl
      rw [hsl, hnil]))
  have hne2 : slug ++ "." ++ ext ≠ ".." := by
    intro habs
    have hlen : (slug ++ "." ++ ext).data.length = 2 := by rw [habs]; rfl
    rw [hd, hslug] at hlen
    simp only [List.length_append, List.length_cons] at hlen
    have hext : ext.data.length ≠ 0 := fun hnil => he (by
      have hex : ext = ⟨ext.data⟩ := rfl
      rw [hex, List.eq_nil_of_length_eq_zero hnil])
    omega
  have hidx : lastDotIdx (slug ++ "." ++ ext).data = some (srest.length + 1) := by
    rw [hd, hslug, List.cons_append]
    show (lastDotAux (srest ++ '.' :: ext.data)).map (· + 1) = some (srest.length + 1)
    rw [lastDotAux_append_dot srest hdot]
    rfl
  unfold stemOf
  rw [if_neg hne2, hidx]
  show (⟨(slug ++ "." ++ ext).data.take (srest.length + 1)⟩ : String) = slug
  rw [hd, hslug, List.cons_append, List.take_succ_cons, List.take_left]
  rw [← hslug]

/-- Rebuilding a string from its character data is the identity. -/
theorem mk_data (s : String) : (⟨s.data⟩ : String) = s := rfl

/-! ## Claims C9, C4, C5, C8 -/

/-- C9: for every blog aggregate, `path_back_to_root` returns the empty
path: it maps over the components of a freshly-constructed empty `PathBuf`,
so the collected result has no components (its display form is the empty
string) regardless of the blog's contents. -/
theorem c9_path_back_to_root_empty (b : Blog) : path_back_to_root b = [] := rfl

/-- C4 counterexample: assembling zero posts does not yield an empty
aggregate — `Blog::load` hits the unchecked `posts[0].show_year = true`
write, an out-of-bounds panic, so the claimed non-crashing empty result is
refuted at a concrete manifest. -/
theorem c4_counterexample : blogLoad ⟨"t", "i"⟩ [] = Outcome.panicked := rfl

/-- C4 amended: for every manifest, assembling zero posts panics (the
index-0 initialization is attempted on an empty vector); the empty case is
not handled. -/
theorem c4_empty_input_panics (m : Manifest) : blogLoad m [] = Outcome.panicked := rfl

/-- C5 counterexample: on the file name "foo.md" (fewer than four
hyphen-delimited segments) the filename-metadata step of `Post::open`
panics via `.unwrap()`; no `MalformedFilename` error value is returned (no
such error type exists in the code), refuting the claim that the run is not
terminated by another mechanism. -/
theorem c5_counterexample : parseFilenameMeta "foo.md" = Outcome.panicked := by decide

/-- C5 amended: for every file name with fewer than four hyphen-delimited
segments, or whose first three segments do not parse as the required
integers, the filename-metadata step of `Post::open` terminates the run
with a panic (an `unwrap` on a missing segment or failed parse) rather than
returning an error value. -/
theorem c5_malformed_panics (f : String) (h : malformedFilename f = true) :
    parseFilenameMeta f = Outcome.panicked := by
  unfold malformedFilename at h
  unfold parseFilenameMeta
  have hlen := splitn_length_le 4 '-' f.data
  rcases hs : splitn 4 '-' f.data with _ | ⟨c0, _ | ⟨c1, _ | ⟨c2, _ | ⟨c3, rest3⟩⟩⟩⟩
  · simp only [hs]
  · simp only [hs]
    cases hp0 : parseI32 ⟨c0⟩ <;> simp only [hp0]
  · simp only [hs]
    cases hp0 : parseI32 ⟨c0⟩ <;> simp only [hp0]
    cases hp1 : parseU32 ⟨c1⟩ <;> simp only [hp1]
  · simp only [hs]
    cases hp0 : parseI32 ⟨c0⟩ <;> simp only [hp0]
    cases hp1 : parseU32 ⟨c1⟩ <;> simp only [hp1]
    cases hp2 : parseU32 ⟨c2⟩ <;> simp only [hp2]
  · rw [hs] at h hlen
    have hr3 : rest3 = [] := by
      simp only [List.length_cons] at hlen
      exact List.eq_nil_of_length_eq_zero (by omega)
    subst hr3
    simp only [hs]
    cases hp0 : parseI32 ⟨c0⟩ with
    | none => simp only [hp0]
    | some y =>
      simp only [hp0]
      cases hp1 : parseU32 ⟨c1⟩ with
      | none => simp only [hp1]
      | some mo =>
        simp only [hp1]
        cases hp2 : parseU32 ⟨c2⟩ with
        | none => simp only [hp2]
        | some dd =>
          exfalso
          simp [hp0, hp1, hp2] at h

/-- C5 witness: the concrete malformed name "foo.md" satisfies the failure
condition and the amended conclusion. -/
theorem c5_malformed_panics_witness :
    malformedFilename "foo.md" = true ∧ parseFilenameMeta "foo.md" = Outcome.panicked :=
  ⟨by decide, c5_malformed_panics "foo.md" (by decide)⟩

/-- C8: for a valid (year, month, day, slug) tuple with zero-padded
two-digit month and day and four-digit year, building the file name
"YYYY-MM-DD-slug.ext" and running the Post Parser's filename logic returns
the year, month and day and the slug-with-extension chunk, and stripping
the extension the way the url computation does recovers the slug exactly. -/
theorem c8_filename_round_trip (y m d : Nat) (slug ext : String)
    (hy : y ≤ 9999) (hm : m ≤ 99) (hd : d ≤ 99)
    (hslug : slug ≠ "") (hext : ext ≠ "") (hdot : '.' ∉ ext.data) :
    parseFilenameMeta
        (zeroPad 4 (natRepr y) ++ "-" ++ pad2 m ++ "-" ++ pad2 d ++ "-" ++ (slug ++ "." ++ ext))
      = Outcome.ok ((y : Int), m, d, slug ++ "." ++ ext)
    ∧ stemOf (slug ++ "." ++ ext) = slug := by
  constructor
  · unfold parseFilenameMeta
    have hdata : (zeroPad 4 (natRepr y) ++ "-" ++ pad2 m ++ "-" ++ pad2 d ++ "-"
          ++ (slug ++ "." ++ ext)).data
        = (zeroPad 4 (natRepr y)).data ++ '-' :: ((zeroPad 2 (natRepr m)).data ++ '-' ::
            ((zeroPad 2 (natRepr d)).data ++ '-' :: (slug ++ "." ++ ext).data)) := by
      show (((((zeroPad 4 (natRepr y)).data ++ ['-']) ++ (zeroPad 2 (natRepr m)).data) ++ ['-'])
          ++ (zeroPad 2 (natRepr d)).data) ++ ['-'] ++ (slug ++ "." ++ ext).data
        = (zeroPad 4 (natRepr y)).data ++ '-' :: ((zeroPad 2 (natRepr m)).data ++ '-' ::
            ((zeroPad 2 (natRepr d)).data ++ '-' :: (slug ++ "." ++ ext).data))
      simp
    rw [hdata, splitn4_eq _ (not_mem_zeroPad 4 y (by decide))
      (not_mem_zeroPad 2 m (by decide)) (not_mem_zeroPad 2 d (by decide))]
    simp only [mk_data, pad2, parseI32_zeroPad 4 y (by omega), parseU32_zeroPad 2 m (by omega),
      parseU32_zeroPad 2 d (by omega)]
  · exact stemOf_slug_ext slug ext hslug hext hdot

/-- C8 witness: the round trip at the concrete tuple (2020, 5, 6,
"my-post") with extension "md". -/
theorem c8_filename_round_trip_witness :
    parseFilenameMeta
        (zeroPad 4 (natRepr 2020) ++ "-" ++ pad2 5 ++ "-" ++ pad2 6 ++ "-"
          ++ ("my-post" ++ "." ++ "md"))
      = Outcome.ok ((2020 : Int), 5, 6, "my-post" ++ "." ++ "md")
    ∧ stemOf ("my-post" ++ "." ++ "md") = "my-post" :=
  c8_filename_round_trip 2020 5 6 "my-post" "md" (by decide) (by decide) (by decide)
    (by decide) (by decide) (by decide)

/-! ## Claim C3: unknown header fields -/

theorem countKey_cons (key k v : String) (rest : List (String × String)) :
    countKey key ((k, v) :: rest) = countKey key rest + (if k = key then 1 else 0) := by
  unfold countKey
  rw [List.countP_cons]
  by_cases hk : k = key <;> simp [hk]

theorem firstVal_cons (key k v : String) (rest : List (String × String)) :
    firstVal key ((k, v) :: rest) = if k = key then some v else firstVal key rest := by
  unfold firstVal
  by_cases hk : k = key
  · rw [List.find?_cons_of_pos _ (by simp [hk]), if_pos hk]
    rfl
  · rw [List.find?_cons_of_neg _ (by simp [hk]), if_neg hk]

theorem decodeCore_ok (fields : List (String × String)) :
    ∀ (tacc aacc : Option String) (t a : String),
    (match tacc with
     | some t0 => t0 = t ∧ countKey "title" fields = 0
     | none => countKey "title" fields = 1 ∧ firstVal "title" fields = some t) →
    (match aacc with
     | some a0 => a0 = a ∧ countKey "author" fields = 0
     | none => countKey "author" fields = 1 ∧ firstVal "author" fields = some a) →
    decodeYamlHeaderCore fields tacc aacc = .ok ⟨t, a⟩ := by
  induction fields with
  | nil =>
    intro tacc aacc t a ht ha
    cases tacc with
    | none => simp [countKey] at ht
    | some t0 =>
      cases aacc with
      | none => simp [countKey] at ha
      | some a0 =>
        obtain ⟨h1, -⟩ := ht
        obtain ⟨h2, -⟩ := ha
        subst h1
        subst h2
        rfl
  | cons kv rest ih =>
    intro tacc aacc t a ht ha
    obtain ⟨k, v⟩ := kv
    by_cases hk : k = "title"
    · subst hk
      cases tacc with
      | some t0 =>
        exfalso
        have h0 := ht.2
        rw [countKey_cons, if_pos rfl] at h0
        omega
      | none =>
        obtain ⟨hcnt, hfv⟩ := ht
        rw [countKey_cons, if_pos rfl] at hcnt
        rw [firstVal_cons, if_pos rfl] at hfv
        have hv : v = t := Option.some.inj hfv
        unfold decodeYamlHeaderCore
        rw [if_pos rfl]
        apply ih (some v) aacc t a ⟨hv, by omega⟩
        cases aacc with
        | some a0 =>
          refine ⟨ha.1, ?_⟩
          have h2 := ha.2
          rw [countKey_cons, if_neg (by decide : ¬("title" : String) = "author")] at h2
          omega
        | none =>
          obtain ⟨hc, hf⟩ := ha
          rw [countKey_cons, if_neg (by decide : ¬("title" : String) = "author")] at hc
          rw [firstVal_cons, if_neg (by decide : ¬("title" : String) = "author")] at hf
          exact ⟨by omega, hf⟩
    · by_cases hk2 : k = "author"
      · subst hk2
        cases aacc with
        | some a0 =>
          exfalso
          have h0 := ha.2
          rw [countKey_cons, if_pos rfl] at h0
          omega
        | none =>
          obtain ⟨hcnt, hfv⟩ := ha
          rw [countKey_cons, if_pos rfl] at hcnt
          rw [firstVal_cons, if_pos rfl] at hfv
          have hv : v = a := Option.some.inj hfv
          unfold decodeYamlHeaderCore
          rw [if_neg hk, if_pos rfl]
          apply ih tacc (some v) t a ?_ ⟨hv, by omega⟩
          cases tacc with
          | some t0 =>
            refine ⟨ht.1, ?_⟩
            have h2 := ht.2
            rw [countKey_cons, if_neg (by decide : ¬("author" : String) = "title")] at h2
            omega
          | none =>
            obtain ⟨hc, hf⟩ := ht
            rw [countKey_cons, if_neg (by decide : ¬("author" : String) = "title")] at hc
            rw [firstVal_cons, if_neg (by decide : ¬("author" : String) = "title")] at hf
            exact ⟨by omega, hf⟩
      · unfold decodeYamlHeaderCore
        rw [if_neg hk, if_neg hk2]
        apply ih tacc aacc t a
        · cases tacc with
          | some t0 =>
            refine ⟨ht.1, ?_⟩
            have h2 := ht.2
            rw [countKey_cons, if_neg hk] at h2
            omega
          | none =>
            obtain ⟨hc, hf⟩ := ht
            rw [countKey_cons, if_neg hk] at hc
            rw [firstVal_cons, if_neg hk] at hf
            exact ⟨by omega, hf⟩
        · cases aacc with
          | some a0 =>
            refine ⟨ha.1, ?_⟩
            have h2 := ha.2
            rw [countKey_cons, if_neg hk2] at h2
            omega
          | none =>
            obtain ⟨hc, hf⟩ := ha
            rw [countKey_cons, if_neg hk2] at hc
            rw [firstVal_cons, if_neg hk2] at hf
            exact ⟨by omega, hf⟩

/-- C3 counterexample: a header mapping with the extra key `draft: true`
decodes successfully to the (title, author) record — it does not fail with
a decode error, because `YamlHeader` carries no `deny_unknown_fields`
attribute and serde's default is to ignore unknown fields. -/
theorem c3_counterexample :
    decodeYamlHeader [("title", "T"), ("author", "A"), ("draft", "true")]
      = Except.ok ⟨"T", "A"⟩ := rfl

/-- C3 amended: unknown keys in the structured header are ignored, not
rejected: any header mapping in which `title` and `author` each occur
exactly once decodes successfully to those two values, whatever other keys
(such as `draft`) it contains. -/
theorem c3_unknown_fields_ignored (fields : List (String × String)) (t a : String)
    (h1 : countKey "title" fields = 1) (h2 : countKey "author" fields = 1)
    (h3 : firstVal "title" fields = some t) (h4 : firstVal "author" fields = some a) :
    decodeYamlHeader fields = .ok ⟨t, a⟩ :=
  decodeCore_ok fields none none t a ⟨h1, h3⟩ ⟨h2, h4⟩

/-- C3 witness: the amended claim applied to the concrete header with the
extra `draft` key. -/
theorem c3_unknown_fields_ignored_witness :
    decodeYamlHeader [("title", "T"), ("author", "A"), ("draft", "true")]
      = Except.ok ⟨"T", "A"⟩ ∧ countKey "title" [("title", "T"), ("author", "A"),
        ("draft", "true")] = 1 :=
  ⟨c3_unknown_fields_ignored [("title", "T"), ("author", "A"), ("draft", "true")] "T" "A"
    (by decide) (by decide) (by decide) (by decide), by decide⟩

/-! ## Timestamp rendering round-trip and injectivity -/

theorem not_mem_natDigits {sep : Char} (n : Nat) (hsep : sep.toNat < 48 ∨ 57 < sep.toNat) :
    sep ∉ natDigits n := by
  intro hmem
  have := mem_natDigits_digit hmem
  omega

theorem parseTimeCore_render (neg : Bool) (A tz : List Char) (yn m d s : Nat)
    (hA : '-' ∉ A) (hpA : parseNat A = some yn) :
    parseTimeCore neg (A ++ '-' :: ((zeroPad 2 (natRepr m)).data ++ '-' ::
      ((zeroPad 2 (natRepr d)).data ++ 'T' :: ((zeroPad 2 (natRepr 0)).data ++ ':' ::
      ((zeroPad 2 (natRepr 0)).data ++ ':' :: ((zeroPad 2 (natRepr s)).data ++ '+' :: tz))))))
    = some (if neg then -(yn : Int) else (yn : Int), m, d, s) := by
  simp only [parseTimeCore, splitFirst_append hA, hpA,
    splitFirst_append (@not_mem_zeroPad '-' 2 m (by decide)),
    splitFirst_append (@not_mem_zeroPad 'T' 2 d (by decide)),
    splitFirst_append (@not_mem_zeroPad ':' 2 0 (by decide)),
    splitFirst_append (@not_mem_zeroPad '+' 2 s (by decide)),
    parseNat_zeroPad]
  norm_num

theorem parseTime_data_cons {st : String} {c : Char} {rest : List Char}
    (h : st.data = c :: rest) :
    parseTime st = if c = '-' then parseTimeCore true rest
      else if c = '+' then parseTimeCore false rest
      else parseTimeCore false (c :: rest) := by
  unfold parseTime
  rw [h]

theorem parseTime_renderClock (y : Int) (m d s : Nat) (hs : s < 60) :
    parseTime (renderClock y m d s) = some (y, m, d, s) := by
  have h1 : s / 3600 = 0 := Nat.div_eq_of_lt (by omega)
  have h2 : s % 3600 / 60 = 0 := by
    rw [Nat.mod_eq_of_lt (by omega)]
    exact Nat.div_eq_of_lt (by omega)
  have h3 : s % 60 = s := Nat.mod_eq_of_lt hs
  have hdata0 : (renderClock y m d s).data
      = (renderYear y).data ++ '-' :: ((zeroPad 2 (natRepr m)).data ++ '-' ::
        ((zeroPad 2 (natRepr d)).data ++ 'T' :: ((zeroPad 2 (natRepr 0)).data ++ ':' ::
        ((zeroPad 2 (natRepr 0)).data ++ ':' ::
        ((zeroPad 2 (natRepr s)).data ++ '+' :: "00:00".data))))) := by
    unfold renderClock pad2
    rw [h1, h2, h3]
    show ((((((((((renderYear y).data ++ ['-']) ++ (zeroPad 2 (natRepr m)).data) ++ ['-'])
      ++ (zeroPad 2 (natRepr d)).data) ++ ['T']) ++ (zeroPad 2 (natRepr 0)).data) ++ [':'])
      ++ (zeroPad 2 (natRepr 0)).data) ++ [':']) ++ (zeroPad 2 (natRepr s)).data
      ++ "+00:00".data
      = (renderYear y).data ++ '-' :: ((zeroPad 2 (natRepr m)).data ++ '-' ::
        ((zeroPad 2 (natRepr d)).data ++ 'T' :: ((zeroPad 2 (natRepr 0)).data ++ ':' ::
        ((zeroPad 2 (natRepr 0)).data ++ ':' ::
        ((zeroPad 2 (natRepr s)).data ++ '+' :: "00:00".data)))))
    simp [List.append_assoc]
  by_cases hneg : y < 0
  · have hyd : (renderYear y).data = '-' :: (zeroPad 4 (natRepr (-y).toNat)).data := by
      unfold renderYear
      rw [if_pos hneg]
      rfl
    rw [hyd, List.cons_append] at hdata0
    rw [parseTime_data_cons hdata0, if_pos rfl,
      parseTimeCore_render true _ _ (-y).toNat m d s
        (@not_mem_zeroPad '-' 4 (-y).toNat (by decide)) (parseNat_zeroPad 4 (-y).toNat)]
    have hy2 : ((-y).toNat : Int) = -y := Int.toNat_of_nonneg (by omega)
    simp [hy2]
  · by_cases hbig : y ≥ 10000
    · have hyd : (renderYear y).data = '+' :: natDigits y.toNat := by
        unfold renderYear
        rw [if_neg hneg, if_pos hbig]
        rfl
      rw [hyd, List.cons_append] at hdata0
      rw [parseTime_data_cons hdata0, if_neg (by decide), if_pos rfl,
        parseTimeCore_render false _ _ y.toNat m d s
          (not_mem_natDigits _ (by decide)) (parseNat_natDigits _)]
      have hy2 : (y.toNat : Int) = y := Int.toNat_of_nonneg (by omega)
      simp [hy2]
    · have hyd : renderYear y = zeroPad 4 (natRepr y.toNat) := by
        unfold renderYear
        rw [if_neg hneg, if_neg hbig]
      obtain ⟨c, cs, hc⟩ := List.exists_cons_of_ne_nil
        (show (zeroPad 4 (natRepr y.toNat)).data ≠ [] by
          rw [zeroPad_natRepr_data]
          simp [natDigits_ne_nil])
      have hdig := head_digit_of_eq hc
      have hminus : ¬c = '-' := fun he => by rw [he] at hdig; revert hdig; decide
      have hplus : ¬c = '+' := fun he => by rw [he] at hdig; revert hdig; decide
      rw [hyd, hc, List.cons_append] at hdata0
      rw [parseTime_data_cons hdata0, if_neg hminus, if_neg hplus, ← List.cons_append, ← hc,
        parseTimeCore_render false _ _ y.toNat m d s
          (@not_mem_zeroPad '-' 4 y.toNat (by decide)) (parseNat_zeroPad 4 y.toNat)]
      have hy2 : (y.toNat : Int) = y := Int.toNat_of_nonneg (by omega)
      simp [hy2]

theorem renderClock_inj {y y' : Int} {m d s m' d' s' : Nat}
    (hs : s < 60) (hs' : s' < 60)
    (h : renderClock y m d s = renderClock y' m' d' s') :
    y = y' ∧ m = m' ∧ d = d' ∧ s = s' := by
  have h1 := parseTime_renderClock y m d s hs
  rw [h, parseTime_renderClock y' m' d' s' hs'] at h1
  have h3 := Option.some.inj h1
  simp only [Prod.mk.injEq] at h3
  exact ⟨h3.1.symm, h3.2.1.symm, h3.2.2.1.symm, h3.2.2.2.symm⟩

theorem build_post_time_eq_ok {y : Int} {m d s : Nat}
    (hv : validDate y m d = true) (hs : s < 60) :
    build_post_time y m d s = .ok (renderClock y m d s) := by
  unfold build_post_time
  rw [if_pos ⟨hv, hs⟩]
  rfl

theorem build_post_time_ok {y : Int} {m d s : Nat} {u : String}
    (h : build_post_time y m d s = .ok u) :
    validDate y m d = true ∧ s < 60 ∧ u = renderClock y m d s := by
  unfold build_post_time at h
  split at h
  case isTrue hcond =>
    injection h with h2
    exact ⟨hcond.1, hcond.2, h2.symm⟩
  case isFalse hcond => cases h

theorem build_post_time_fail {y : Int} {m d s : Nat} (hs : 60 ≤ s) :
    build_post_time y m d s = .panicked := by
  unfold build_post_time
  rw [if_neg (fun hcond => by omega)]

/-! ## Pass-preservation lemmas -/

theorem set_updated_ok {p q : Post} {s : Nat} (h : set_updated p s = .ok q) :
    validDate p.year p.month p.day = true ∧ s < 60 ∧
      q = { p with updated := renderClock p.year p.month p.day s } := by
  unfold set_updated at h
  cases hb : build_post_time p.year p.month p.day s with
  | ok u =>
    rw [hb] at h
    obtain ⟨hv, hs, hu⟩ := build_post_time_ok hb
    refine ⟨hv, hs, ?_⟩
    have h2 : Outcome.ok { p with updated := u } = Outcome.ok q := h
    injection h2 with h3
    rw [← h3, hu]
  | err m => rw [hb] at h; cases h
  | panicked => rw [hb] at h; cases h

theorem set_updated_eq_ok (p : Post) (s : Nat)
    (hv : validDate p.year p.month p.day = true) (hs : s < 60) :
    set_updated p s = .ok { p with updated := renderClock p.year p.month p.day s } := by
  unfold set_updated
  rw [build_post_time_eq_ok hv hs]
  rfl

theorem showYearLoop_map_noSY (py : Int) (l : List Post) :
    (showYearLoop py l).map noSY = l.map noSY := by
  induction l generalizing py with
  | nil => rfl
  | cons p rest ih => simp [showYearLoop, noSY, ih]

theorem showYearPass_map_noSY (l : List Post) : (showYearPass l).map noSY = l.map noSY := by
  cases l with
  | nil => rfl
  | cons p rest => simp [showYearPass, noSY, showYearLoop_map_noSY]

theorem updateLoop_map_view (anchor : Post) (off : Nat) (l out : List Post)
    (h : updateLoop anchor off l = .ok out) :
    out.map (fun p => (skel p, p.show_year)) = l.map (fun p => (skel p, p.show_year)) := by
  induction l generalizing anchor off out with
  | nil =>
    have h2 : Outcome.ok ([] : List Post) = Outcome.ok out := h
    injection h2 with h3
    rw [← h3]
  | cons p rest ih =>
    unfold updateLoop at h
    by_cases hm : p.updated = anchor.updated
    · rw [if_pos hm] at h
      cases hset : set_updated p off with
      | ok p2 =>
        rw [hset] at h
        cases hrec : updateLoop anchor (off + 1) rest with
        | ok out2 =>
          rw [hrec] at h
          have h2 : Outcome.ok (p2 :: out2) = Outcome.ok out := h
          injection h2 with h3
          rw [← h3]
          obtain ⟨-, -, hp2⟩ := set_updated_ok hset
          simp only [List.map_cons]
          rw [ih _ _ _ hrec]
          congr 1
          rw [hp2]
          rfl
        | err m => rw [hrec] at h; cases h
        | panicked => rw [hrec] at h; cases h
      | err m => rw [hset] at h; cases h
      | panicked => rw [hset] at h; cases h
    · rw [if_neg hm] at h
      cases hrec : updateLoop p 1 rest with
      | ok out2 =>
        rw [hrec] at h
        have h2 : Outcome.ok (p :: out2) = Outcome.ok out := h
        injection h2 with h3
        rw [← h3]
        simp only [List.map_cons, ih _ _ _ hrec]
      | err m => rw [hrec] at h; cases h
      | panicked => rw [hrec] at h; cases h

theorem updatePass_map_view (l out : List Post) (h : updatePass l = .ok out) :
    out.map (fun p => (skel p, p.show_year)) = l.map (fun p => (skel p, p.show_year)) := by
  cases l with
  | nil =>
    have h2 : Outcome.ok ([] : List Post) = Outcome.ok out := h
    injection h2 with h3
    rw [← h3]
  | cons p rest =>
    have h1 : (updateLoop p 1 rest).map (fun out2 => p :: out2) = Outcome.ok out := h
    cases hrec : updateLoop p 1 rest with
    | ok out2 =>
      rw [hrec] at h1
      have h2 : Outcome.ok (p :: out2) = Outcome.ok out := h1
      injection h2 with h3
      rw [← h3]
      simp only [List.map_cons]
      rw [updateLoop_map_view _ _ _ _ hrec]
    | err m => rw [hrec] at h1; cases h1
    | panicked => rw [hrec] at h1; cases h1

theorem map_comp_of_map_eq {α β γ : Type} {f : α → β} (g : β → γ) {l1 l2 : List α}
    (h : l1.map f = l2.map f) : l1.map (fun x => g (f x)) = l2.map (fun x => g (f x)) := by
  simpa [List.map_map, Function.comp] using congrArg (List.map g) h

theorem blogLoad_ok {mf : Manifest} {posts : List Post} {blog : Blog}
    (h : blogLoad mf posts = .ok blog) :
    ∃ p0 rest final, (sortByKey loadSortKey posts).reverse = p0 :: rest ∧
      updatePass (showYearPass (p0 :: rest)) = .ok final ∧
      blog = ⟨mf.title, mf.index_title, final⟩ := by
  unfold blogLoad at h
  cases hs : (sortByKey loadSortKey posts).reverse with
  | nil => rw [hs] at h; cases h
  | cons p0 rest =>
    rw [hs] at h
    have h1 : (updatePass (showYearPass (p0 :: rest))).map (fun final =>
        (⟨mf.title, mf.index_title, final⟩ : Blog)) = Outcome.ok blog := h
    cases hu : updatePass (showYearPass (p0 :: rest)) with
    | ok final =>
      rw [hu] at h1
      refine ⟨p0, rest, final, rfl, hu, ?_⟩
      have h2 : Outcome.ok (⟨mf.title, mf.index_title, final⟩ : Blog) = Outcome.ok blog := h1
      injection h2 with h3
      rw [h3]
    | err m => rw [hu] at h1; cases h1
    | panicked => rw [hu] at h1; cases h1

/-! ## Claim C6: the show-year pass -/

theorem showYearLoop_head (py : Int) (l : List Post) (p0 : Post) (rest2 : List Post)
    (h : showYearLoop py l = p0 :: rest2) : p0.show_year = (py != p0.year) := by
  cases l with
  | nil => cases h
  | cons p rest =>
    unfold showYearLoop at h
    injection h with h1 h2
    rw [← h1]

theorem showYearLoop_chain (py : Int) (l : List Post) :
    List.Chain' (fun a b => b.show_year = (a.year != b.year)) (showYearLoop py l) := by
  induction l generalizing py with
  | nil => exact List.chain'_nil
  | cons p rest ih =>
    unfold showYearLoop
    cases hrec : showYearLoop p.year rest with
    | nil => exact List.chain'_singleton _
    | cons q qrest =>
      refine List.chain'_cons.mpr ⟨?_, ?_⟩
      · exact showYearLoop_head p.year rest q qrest hrec
      · rw [← hrec]
        exact ih p.year

theorem showYearPass_head (l : List Post) (p0 : Post) (rest2 : List Post)
    (h : showYearPass l = p0 :: rest2) : p0.show_year = true := by
  cases l with
  | nil => cases h
  | cons p rest =>
    unfold showYearPass at h
    injection h with h1 h2
    rw [← h1]

theorem showYearPass_chain (l : List Post) :
    List.Chain' (fun a b => b.show_year = (a.year != b.year)) (showYearPass l) := by
  cases l with
  | nil => exact List.chain'_nil
  | cons p rest =>
    show List.Chain' (fun a b => b.show_year = (a.year != b.year))
      ({ p with show_year := true } :: showYearLoop p.year rest)
    cases hrec : showYearLoop p.year rest with
    | nil => exact List.chain'_singleton _
    | cons q qrest =>
      refine List.chain'_cons.mpr ⟨?_, ?_⟩
      · exact showYearLoop_head p.year rest q qrest hrec
      · rw [← hrec]
        exact showYearLoop_chain p.year rest

/-- C6: after a successful assembly the first displayed post has
`show_year` true, and each later post has `show_year` true exactly when its
year differs from the year of the post immediately before it in the final
order (adjacent pairs of the final list). -/
theorem c6_show_year (mf : Manifest) (posts : List Post) (blog : Blog)
    (h : blogLoad mf posts = .ok blog) :
    (∃ p0 rest, blog.posts = p0 :: rest ∧ p0.show_year = true) ∧
      List.Chain' (fun a b => b.show_year = (a.year != b.year)) blog.posts := by
  obtain ⟨p0, rest, final, hs, hu, hb⟩ := blogLoad_ok h
  subst hb
  show (∃ q0 qrest, final = q0 :: qrest ∧ q0.show_year = true) ∧
    List.Chain' (fun a b => b.show_year = (a.year != b.year)) final
  have hview := updatePass_map_view _ _ hu
  have hsmall := map_comp_of_map_eq
    (fun x : PostSkel × Bool => (x.2, x.1.year)) hview
  constructor
  · cases hsy : showYearPass (p0 :: rest) with
    | nil => exact absurd hsy (by unfold showYearPass; simp)
    | cons q0 qrest =>
      rw [hsy] at hview
      cases final with
      | nil => rw [List.map_nil, List.map_cons] at hview; cases hview
      | cons f0 frest =>
        refine ⟨f0, frest, rfl, ?_⟩
        rw [List.map_cons, List.map_cons] at hview
        have hhead := List.head_eq_of_cons_eq hview
        have hsy0 := showYearPass_head _ _ _ hsy
        have : f0.show_year = q0.show_year := congrArg Prod.snd hhead
        rw [this, hsy0]
  · have hchain := showYearPass_chain (p0 :: rest)
    have hS : List.Chain'
        (fun (u v : Bool × Int) => v.1 = (u.2 != v.2))
        ((showYearPass (p0 :: rest)).map (fun p => (p.show_year, p.year))) := by
      rw [List.chain'_map]
      exact hchain
    rw [show ((showYearPass (p0 :: rest)).map (fun p => (p.show_year, p.year)))
        = ((showYearPass (p0 :: rest)).map (fun p =>
          ((fun x : PostSkel × Bool => (x.2, x.1.year))
            ((fun q => (skel q, q.show_year)) p)))) from rfl,
      ← hsmall] at hS
    have := (List.chain'_map (fun p : Post =>
      ((fun x : PostSkel × Bool => (x.2, x.1.year))
        ((fun q => (skel q, q.show_year)) p)))).mp hS
    exact this

/-- C6 witness: the three spec-example posts (2020-01-01 and two on
2021-05-05) load into display order [b, a, c] with year flags
[true, false, true]. -/
theorem c6_show_year_witness :
    (∃ p0 rest, exBlogABC.posts = p0 :: rest ∧ p0.show_year = true) ∧
      List.Chain' (fun a b => b.show_year = (a.year != b.year)) exBlogABC.posts :=
  c6_show_year ⟨"t", "i"⟩ [exPostC, exPostA, exPostB] exBlogABC (by decide)

/-! ## Claim C7: the timestamp-disambiguation pass -/

theorem origShaped_spec {p : Post} (h : OrigShaped p) :
    validDate p.year p.month p.day = true ∧ p.updated = renderClock p.year p.month p.day 0 := by
  obtain ⟨hv, -, hu⟩ := build_post_time_ok h
  exact ⟨hv, hu⟩

theorem addSecondsSpec_render (y : Int) (m d k : Nat) :
    addSecondsSpec (renderClock y m d 0) k = renderClock y m d k := by
  unfold addSecondsSpec
  rw [parseTime_renderClock y m d 0 (by omega)]
  show renderClock y m d (0 + k) = renderClock y m d k
  rw [Nat.zero_add]

theorem updateLoop_spec (l : List Post) : ∀ (anchor : Post) (off : Nat) (out : List Post),
    OrigShaped anchor → (∀ p ∈ l, OrigShaped p) →
    updateLoop anchor off l = .ok out → out = specLoop anchor.updated off l := by
  induction l with
  | nil =>
    intro anchor off out _ _ h
    have h2 : Outcome.ok ([] : List Post) = Outcome.ok out := h
    injection h2 with h3
    rw [← h3]
    rfl
  | cons p rest ih =>
    intro anchor off out hanch hl h
    have hp : OrigShaped p := hl p (List.mem_cons_self p rest)
    have hrest : ∀ q ∈ rest, OrigShaped q := fun q hq => hl q (List.mem_cons_of_mem p hq)
    unfold updateLoop at h
    unfold specLoop
    by_cases hm : p.updated = anchor.updated
    · rw [if_pos hm] at h
      rw [if_pos hm]
      cases hset : set_updated p off with
      | ok p2 =>
        rw [hset] at h
        cases hrec : updateLoop anchor (off + 1) rest with
        | ok out2 =>
          rw [hrec] at h
          have h2 : Outcome.ok (p2 :: out2) = Outcome.ok out := h
          injection h2 with h3
          rw [← h3, ih anchor (off + 1) out2 hanch hrest hrec]
          obtain ⟨-, -, hp2⟩ := set_updated_ok hset
          obtain ⟨hav, hau⟩ := origShaped_spec hanch
          obtain ⟨hpv, hpu⟩ := origShaped_spec hp
          have hdates : p.year = anchor.year ∧ p.month = anchor.month ∧ p.day = anchor.day := by
            have heq : renderClock p.year p.month p.day 0
                = renderClock anchor.year anchor.month anchor.day 0 := by
              rw [← hpu, ← hau, hm]
            obtain ⟨hy, hmm, hdd, -⟩ := renderClock_inj (by omega) (by omega) heq
            exact ⟨hy, hmm, hdd⟩
          congr 1
          rw [hp2, hau, addSecondsSpec_render, hdates.1, hdates.2.1, hdates.2.2]
        | err m => rw [hrec] at h; cases h
        | panicked => rw [hrec] at h; cases h
      | err m => rw [hset] at h; cases h
      | panicked => rw [hset] at h; cases h
    · rw [if_neg hm] at h
      rw [if_neg hm]
      cases hrec : updateLoop p 1 rest with
      | ok out2 =>
        rw [hrec] at h
        have h2 : Outcome.ok (p :: out2) = Outcome.ok out := h
        injection h2 with h3
        rw [← h3, ih p 1 out2 hp hrest hrec]
      | err m => rw [hrec] at h; cases h
      | panicked => rw [hrec] at h; cases h

theorem updatePass_spec {l out : List Post} (hl : ∀ p ∈ l, OrigShaped p)
    (h : updatePass l = .ok out) : out = specDisambig l := by
  cases l with
  | nil =>
    have h2 : Outcome.ok ([] : List Post) = Outcome.ok out := h
    injection h2 with h3
    rw [← h3]
    rfl
  | cons p rest =>
    have h1 : (updateLoop p 1 rest).map (fun out2 => p :: out2) = Outcome.ok out := h
    cases hrec : updateLoop p 1 rest with
    | ok out2 =>
      rw [hrec] at h1
      have h2 : Outcome.ok (p :: out2) = Outcome.ok out := h1
      injection h2 with h3
      rw [← h3]
      show p :: out2 = p :: specLoop p.updated 1 rest
      rw [updateLoop_spec rest p 1 out2 (hl p (List.mem_cons_self p rest))
        (fun q hq => hl q (List.mem_cons_of_mem p hq)) hrec]
    | err m => rw [hrec] at h1; cases h1
    | panicked => rw [hrec] at h1; cases h1

/-- C7: on parser-produced posts, whenever the disambiguation pass of
`Blog::load` completes, its result is exactly the specification's scan: the
anchor (`lastMatchingIndex`) starts at index 0, a post whose `updatedAt`
equals the anchor's original value is rewritten to that value advanced by
`i - lastMatchingIndex` seconds, and any other post re-anchors the scan.
In particular, on the concrete run `exRun`, three posts with identical
original timestamp T become [T, T+1s, T+2s], and a fourth post with a
different original T2 resets the anchor so that the fifth post matching T2
gets T2+1s rather than T2+4s. -/
theorem c7_disambiguation (l out : List Post)
    (hl : ∀ p ∈ l, OrigShaped p) (h : updatePass l = .ok out) :
    out = specDisambig l ∧ updatePass exRun = .ok exRunOut :=
  ⟨updatePass_spec hl h, by decide⟩

/-- C7 witness: the theorem applied to the concrete run `exRun`. -/
theorem c7_disambiguation_witness :
    exRunOut = specDisambig exRun ∧ updatePass exRun = .ok exRunOut :=
  c7_disambiguation exRun exRunOut (by decide) (by decide)

/-! ## Claim C10: the 60-second headroom of the disambiguation pass -/

theorem isOk_map {α β : Type} (f : α → β) (x : Outcome α) : (x.map f).isOk = x.isOk := by
  cases x <;> rfl

theorem set_updated_cases (p : Post) (s : Nat) :
    (∃ q, set_updated p s = .ok q) ∨ set_updated p s = .panicked := by
  unfold set_updated build_post_time
  split
  · exact Or.inl ⟨_, rfl⟩
  · exact Or.inr rfl

theorem set_updated_panics (p : Post) {s : Nat} (hs : 60 ≤ s) :
    set_updated p s = .panicked := by
  unfold set_updated
  rw [build_post_time_fail hs]
  rfl

theorem updateLoop_total (l : List Post) : ∀ (anchor : Post) (k : Nat),
    (∀ p ∈ l, OrigShaped p) → OrigShaped anchor → 1 ≤ k →
    (∀ mid suf, l = mid ++ suf → (∀ p ∈ mid, p.updated = anchor.updated) →
      k + mid.length ≤ 60) →
    (∀ pre mid suf, l = pre ++ mid ++ suf →
      (∀ p ∈ mid, ∀ q ∈ mid, p.updated = q.updated) → mid.length ≤ 60) →
    (updateLoop anchor k l).isOk = true := by
  induction l with
  | nil =>
    intro anchor k _ _ _ _ _
    rfl
  | cons p rest ih =>
    intro anchor k hl hanch hk H1 H2
    have hp : OrigShaped p := hl p (List.mem_cons_self p rest)
    have hrest : ∀ q ∈ rest, OrigShaped q := fun q hq => hl q (List.mem_cons_of_mem p hq)
    unfold updateLoop
    by_cases hm : p.updated = anchor.updated
    · rw [if_pos hm]
      have hk60 : k + 1 ≤ 60 := by
        have := H1 [p] rest rfl (by
          intro q hq
          rw [List.mem_singleton] at hq
          rw [hq]
          exact hm)
        simpa using this
      obtain ⟨hpv, -⟩ := origShaped_spec hp
      rw [set_updated_eq_ok p k hpv (by omega)]
      show ((updateLoop anchor (k + 1) rest).map
        (fun out => { p with updated := renderClock p.year p.month p.day k } :: out)).isOk = true
      rw [isOk_map]
      apply ih anchor (k + 1) hrest hanch (by omega)
      · intro mid suf hsplit hall
        have := H1 (p :: mid) suf (by rw [hsplit]; rfl) (by
          intro q hq
          rcases List.mem_cons.mp hq with hq | hq
          · rw [hq]; exact hm
          · exact hall q hq)
        simp only [List.length_cons] at this
        omega
      · intro pre mid suf hsplit hpair
        exact H2 (p :: pre) mid suf (by rw [hsplit]; rfl) hpair
    · rw [if_neg hm]
      rw [isOk_map]
      apply ih p 1 hrest hp (by omega)
      · intro mid suf hsplit hall
        have := H2 [] (p :: mid) suf (by rw [hsplit]; rfl) (by
          intro x hx y hy
          have hx2 : x.updated = p.updated := by
            rcases List.mem_cons.mp hx with hx | hx
            · rw [hx]
            · exact hall x hx
          have hy2 : y.updated = p.updated := by
            rcases List.mem_cons.mp hy with hy | hy
            · rw [hy]
            · exact hall y hy
          rw [hx2, hy2])
        simp only [List.length_cons] at this
        omega
      · intro pre mid suf hsplit hpair
        exact H2 (p :: pre) mid suf (by rw [hsplit]; rfl) hpair

theorem updateLoop_run_panics : ∀ (mid : List Post) (anchor : Post) (k : Nat) (suf : List Post),
    (∀ p ∈ mid, p.updated = anchor.updated) → 1 ≤ k → 1 ≤ mid.length →
    61 ≤ k + mid.length → updateLoop anchor k (mid ++ suf) = .panicked := by
  intro mid
  induction mid with
  | nil =>
    intro anchor k suf _ _ hlen _
    simp at hlen
  | cons p mid' ih =>
    intro anchor k suf hall hk hlen hsum
    show updateLoop anchor k (p :: (mid' ++ suf)) = .panicked
    unfold updateLoop
    rw [if_pos (hall p (List.mem_cons_self p mid'))]
    by_cases hk60 : k < 60
    · rcases set_updated_cases p k with ⟨q, hq⟩ | hpan
      · rw [hq]
        cases mid' with
        | nil =>
          exfalso
          simp only [List.length_cons, List.length_nil] at hsum
          omega
        | cons r mid2 =>
          rw [ih anchor (k + 1) suf
            (fun x hx => hall x (List.mem_cons_of_mem p hx)) (by omega) (by simp)
            (by simp only [List.length_cons] at hsum ⊢; omega)]
          rfl
      · rw [hpan]
    · rw [set_updated_panics p (by omega)]

theorem updateLoop_panics_of_run : ∀ (pre : List Post) (anchor : Post) (k : Nat)
    (mid suf : List Post),
    (∀ p ∈ mid, ∀ q ∈ mid, p.updated = q.updated) → 61 ≤ mid.length → 1 ≤ k →
    updateLoop anchor k (pre ++ mid ++ suf) = .panicked := by
  intro pre
  induction pre with
  | nil =>
    intro anchor k mid suf hpairs hlen hk
    cases mid with
    | nil => simp at hlen
    | cons m0 mid' =>
      by_cases hm : m0.updated = anchor.updated
      · have hall : ∀ p ∈ m0 :: mid', p.updated = anchor.updated := by
          intro p hp
          rw [hpairs p hp m0 (List.mem_cons_self m0 mid')]
          exact hm
        have := updateLoop_run_panics (m0 :: mid') anchor k suf hall hk (by simp)
          (by simp only [List.length_cons] at hlen ⊢; omega)
        simpa using this
      · show updateLoop anchor k (m0 :: (mid' ++ suf)) = .panicked
        unfold updateLoop
        rw [if_neg hm]
        rw [updateLoop_run_panics mid' m0 1 suf
          (fun p hp => hpairs p (List.mem_cons_of_mem m0 hp) m0 (List.mem_cons_self m0 mid'))
          (by omega) (by simp only [List.length_cons] at hlen; omega)
          (by simp only [List.length_cons] at hlen; omega)]
        rfl
  | cons p pre' ih =>
    intro anchor k mid suf hpairs hlen hk
    show updateLoop anchor k (p :: (pre' ++ mid ++ suf)) = .panicked
    unfold updateLoop
    by_cases hm : p.updated = anchor.updated
    · rw [if_pos hm]
      rcases set_updated_cases p k with ⟨q, hq⟩ | hpan
      · rw [hq, ih anchor (k + 1) mid suf hpairs hlen (by omega)]
        rfl
      · rw [hpan]
    · rw [if_neg hm, ih p 1 mid suf hpairs hlen (by omega)]
      rfl

/-- C10: on parser-produced posts the disambiguation pass is total exactly
when no contiguous run of posts sharing one original `updatedAt` (hence one
date) exceeds 60 posts.  If every such run has length at most 60, every
`set_updated` call receives a seconds value below 60 and the pass
completes; a run of 61 or more forces a seconds value of at least 60 into
the timestamp construction, whose time-of-day seconds field cannot hold it,
so the pass panics instead of producing a carried-over time. -/
theorem c10_run_length_bound (l : List Post) (hl : ∀ p ∈ l, OrigShaped p) :
    ((∀ pre mid suf, l = pre ++ mid ++ suf →
        (∀ p ∈ mid, ∀ q ∈ mid, p.updated = q.updated) → mid.length ≤ 60) →
      (updatePass l).isOk = true) ∧
    (∀ pre mid suf, l = pre ++ mid ++ suf →
      (∀ p ∈ mid, ∀ q ∈ mid, p.updated = q.updated) → 61 ≤ mid.length →
      updatePass l = .panicked) := by
  constructor
  · intro H
    cases l with
    | nil => rfl
    | cons p rest =>
      show ((updateLoop p 1 rest).map (fun out => p :: out)).isOk = true
      rw [isOk_map]
      apply updateLoop_total rest p 1
        (fun q hq => hl q (List.mem_cons_of_mem p hq))
        (hl p (List.mem_cons_self p rest)) (le_refl 1)
      · intro mid suf hsplit hall
        have := H [] (p :: mid) suf (by rw [hsplit]; rfl) (by
          intro x hx y hy
          have hx2 : x.updated = p.updated := by
            rcases List.mem_cons.mp hx with hx | hx
            · rw [hx]
            · exact hall x hx
          have hy2 : y.updated = p.updated := by
            rcases List.mem_cons.mp hy with hy | hy
            · rw [hy]
            · exact hall y hy
          rw [hx2, hy2])
        simp only [List.length_cons] at this
        omega
      · intro pre mid suf hsplit hpair
        exact H (p :: pre) mid suf (by rw [hsplit]; rfl) hpair
  · intro pre mid suf hsplit hpair hlen
    subst hsplit
    cases pre with
    | cons p pre' =>
      show ((updateLoop p 1 (pre' ++ mid ++ suf)).map (fun out => p :: out)) = .panicked
      rw [updateLoop_panics_of_run pre' p 1 mid suf hpair hlen (le_refl 1)]
      rfl
    | nil =>
      cases mid with
      | nil => simp at hlen
      | cons m0 mid' =>
        show ((updateLoop m0 1 (mid' ++ suf)).map (fun out => m0 :: out)) = .panicked
        rw [updateLoop_run_panics mid' m0 1 suf
          (fun p hp => hpair p (List.mem_cons_of_mem m0 hp) m0 (List.mem_cons_self m0 mid'))
          (le_refl 1) (by simp only [List.length_cons] at hlen; omega)
          (by simp only [List.length_cons] at hlen; omega)]
        rfl

/-- C10 witness: the run-length bound applied to the five-post example,
whose runs all have length at most 60, so the pass completes. -/
theorem c10_run_length_bound_witness :
    (∀ p ∈ exRun, OrigShaped p) ∧ (updatePass exRun).isOk = true := by
  refine ⟨by decide, ?_⟩
  apply (c10_run_length_bound exRun (by decide)).1
  intro pre mid suf hsplit _
  have hlen := congrArg List.length hsplit
  simp only [List.length_append] at hlen
  have h5 : exRun.length = 5 := rfl
  omega

/-! ## Sorting: permutation and order of the stable insertion sort -/

theorem lexLt_asymm {a b : List Char} (h : lexLt a b = true) : lexLt b a = false := by
  by_contra hc
  have hb : lexLt b a = true := by
    cases hba : lexLt b a
    · exact absurd hba hc
    · rfl
  have := lexLt_trans h hb
  rw [lexLt_irrefl] at this
  cases this

theorem insertSorted_perm (key : Post → String) (x : Post) (l : List Post) :
    (insertSorted key x l).Perm (x :: l) := by
  induction l with
  | nil => exact List.Perm.refl _
  | cons y ys ih =>
    unfold insertSorted
    by_cases hlt : lexLt (key x).data (key y).data = true
    · rw [if_pos hlt]
    · rw [if_neg hlt]
      exact (List.Perm.cons y ih).trans (List.Perm.swap x y ys)

theorem mem_insertSorted {key : Post → String} {x z : Post} {l : List Post}
    (h : z ∈ insertSorted key x l) : z = x ∨ z ∈ l := by
  have := (insertSorted_perm key x l).mem_iff.mp h
  rwa [List.mem_cons] at this

theorem insertSorted_pairwise (key : Post → String) (x : Post) (l : List Post)
    (h : l.Pairwise (keyAsc key)) : (insertSorted key x l).Pairwise (keyAsc key) := by
  induction l with
  | nil => exact List.pairwise_singleton _ _
  | cons y ys ih =>
    rw [List.pairwise_cons] at h
    obtain ⟨hy, hys⟩ := h
    unfold insertSorted
    by_cases hlt : lexLt (key x).data (key y).data = true
    · rw [if_pos hlt]
      refine List.pairwise_cons.mpr ⟨?_, List.pairwise_cons.mpr ⟨hy, hys⟩⟩
      intro z hz
      rcases List.mem_cons.mp hz with hz | hz
      · rw [hz]
        exact lexLt_asymm hlt
      · show lexLt (key z).data (key x).data = false
        cases hzx : lexLt (key z).data (key x).data
        · rfl
        · exfalso
          have hzy := lexLt_trans hzx hlt
          have := hy z hz
          rw [this] at hzy
          cases hzy
    · rw [if_neg hlt]
      refine List.pairwise_cons.mpr ⟨?_, ih hys⟩
      intro z hz
      rcases mem_insertSorted hz with hz | hz
      · rw [hz]
        show lexLt (key x).data (key y).data = false
        cases hxy : lexLt (key x).data (key y).data
        · rfl
        · exact absurd hxy hlt
      · exact hy z hz

theorem sortByKey_perm (key : Post → String) (l : List Post) :
    (sortByKey key l).Perm l := by
  have hgen : ∀ (l2 acc : List Post), (l2.foldl (fun acc x => insertSorted key x acc) acc).Perm
      (acc ++ l2) := by
    intro l2
    induction l2 with
    | nil => intro acc; simp
    | cons x xs ih =>
      intro acc
      have h1 := ih (insertSorted key x acc)
      have h2 : (insertSorted key x acc ++ xs).Perm ((x :: acc) ++ xs) :=
        (insertSorted_perm key x acc).append_right xs
      have h3 : ((x :: acc) ++ xs).Perm (acc ++ x :: xs) := by
        show (x :: (acc ++ xs)).Perm (acc ++ x :: xs)
        exact List.perm_middle.symm
      exact (h1.trans h2).trans h3
  simpa using hgen l []

theorem sortByKey_pairwise (key : Post → String) (l : List Post) :
    (sortByKey key l).Pairwise (keyAsc key) := by
  have hgen : ∀ (l2 acc : List Post), acc.Pairwise (keyAsc key) →
      (l2.foldl (fun acc x => insertSorted key x acc) acc).Pairwise (keyAsc key) := by
    intro l2
    induction l2 with
    | nil => intro acc h; exact h
    | cons x xs ih => intro acc h; exact ih _ (insertSorted_pairwise key x acc h)
  exact hgen l [] List.Pairwise.nil

theorem sorted_reverse_pairwise (key : Post → String) (l : List Post) :
    ((sortByKey key l).reverse).Pairwise (keyDesc key) := by
  have := List.pairwise_reverse.mpr (sortByKey_pairwise key l)
  exact this

/-! ## The sort key determines the date: prefix decoding -/

theorem natDigits_inj {a b : Nat} (h : natDigits a = natDigits b) : a = b := by
  have ha := parseNat_natDigits a
  rw [h, parseNat_natDigits b] at ha
  exact (Option.some.inj ha).symm

theorem zeroPad_natRepr_inj {w a b : Nat}
    (h : (zeroPad w (natRepr a)).data = (zeroPad w (natRepr b)).data) : a = b := by
  have ha := parseNat_zeroPad w a
  rw [h, parseNat_zeroPad w b] at ha
  exact (Option.some.inj ha).symm

theorem intRepr_nonneg_data {y : Int} (hy : 0 ≤ y) : (intRepr y).data = natDigits y.toNat := by
  unfold intRepr
  rw [if_neg (by omega)]
  rfl

theorem intRepr_neg_data {y : Int} (hy : y < 0) :
    (intRepr y).data = '-' :: natDigits (-y).toNat := by
  unfold intRepr
  rw [if_pos hy]
  rfl

theorem intRepr_append_inj {y1 y2 : Int} {R1 R2 : List Char}
    (h : (intRepr y1).data ++ '-' :: R1 = (intRepr y2).data ++ '-' :: R2) :
    y1 = y2 ∧ R1 = R2 := by
  by_cases h1 : y1 < 0 <;> by_cases h2 : y2 < 0
  · rw [intRepr_neg_data h1, intRepr_neg_data h2, List.cons_append, List.cons_append] at h
    injection h with h3 h4
    obtain ⟨hA, hR⟩ := append_sep_inj (not_mem_natDigits _ (by decide))
      (not_mem_natDigits _ (by decide)) h4
    have := natDigits_inj hA
    exact ⟨by omega, hR⟩
  · rw [intRepr_neg_data h1, intRepr_nonneg_data (by omega), List.cons_append] at h
    obtain ⟨c, cs, hc⟩ := List.exists_cons_of_ne_nil (natDigits_ne_nil y2.toNat)
    rw [hc, List.cons_append] at h
    injection h with h3 h4
    have hdig : 48 ≤ c.toNat ∧ c.toNat ≤ 57 :=
      mem_natDigits_digit (by rw [hc]; exact List.mem_cons_self c cs)
    rw [← h3] at hdig
    exact absurd hdig (by decide)
  · rw [intRepr_neg_data h2, intRepr_nonneg_data (by omega), List.cons_append] at h
    obtain ⟨c, cs, hc⟩ := List.exists_cons_of_ne_nil (natDigits_ne_nil y1.toNat)
    rw [hc, List.cons_append] at h
    injection h with h3 h4
    have hdig : 48 ≤ c.toNat ∧ c.toNat ≤ 57 :=
      mem_natDigits_digit (by rw [hc]; exact List.mem_cons_self c cs)
    rw [h3] at hdig
    exact absurd hdig (by decide)
  · rw [intRepr_nonneg_data (by omega), intRepr_nonneg_data (by omega)] at h
    obtain ⟨hA, hR⟩ := append_sep_inj (not_mem_natDigits _ (by decide))
      (not_mem_natDigits _ (by decide)) h
    have := natDigits_inj hA
    exact ⟨by omega, hR⟩

/-- The date-identifying region of the sort key, hyphen-terminated. -/
def dateStart (y : Int) (m d : Nat) : List Char :=
  (intRepr y).data ++ '-' :: ((zeroPad 2 (natRepr m)).data ++ '-' ::
    ((zeroPad 2 (natRepr d)).data ++ ['-']))

theorem key_data_split (x : Post) :
    (loadSortKey x).data = dateStart x.year x.month x.day ++ x.title.data := by
  show ((((((intRepr x.year).data ++ ['-']) ++ (zeroPad 2 (natRepr x.month)).data) ++ ['-'])
    ++ (zeroPad 2 (natRepr x.day)).data) ++ ['-']) ++ x.title.data
    = dateStart x.year x.month x.day ++ x.title.data
  unfold dateStart
  simp [List.append_assoc]

theorem dateStart_decode {y1 y2 : Int} {m1 d1 m2 d2 : Nat} {t1 t2 : List Char}
    (h : dateStart y1 m1 d1 ++ t1 = dateStart y2 m2 d2 ++ t2) :
    y1 = y2 ∧ m1 = m2 ∧ d1 = d2 ∧ t1 = t2 := by
  have h2 : (intRepr y1).data ++ '-' :: ((zeroPad 2 (natRepr m1)).data ++ '-' ::
      ((zeroPad 2 (natRepr d1)).data ++ '-' :: t1))
    = (intRepr y2).data ++ '-' :: ((zeroPad 2 (natRepr m2)).data ++ '-' ::
      ((zeroPad 2 (natRepr d2)).data ++ '-' :: t2)) := by
    have ha := h
    unfold dateStart at ha
    simpa [List.append_assoc] using ha
  obtain ⟨hy, hr1⟩ := intRepr_append_inj h2
  obtain ⟨hm, hr2⟩ := append_sep_inj (@not_mem_zeroPad '-' 2 m1 (by decide))
    (@not_mem_zeroPad '-' 2 m2 (by decide)) hr1
  obtain ⟨hd, hr3⟩ := append_sep_inj (@not_mem_zeroPad '-' 2 d1 (by decide))
    (@not_mem_zeroPad '-' 2 d2 (by decide)) hr2
  exact ⟨hy, zeroPad_natRepr_inj hm, zeroPad_natRepr_inj hd, hr3⟩

/-- A post sitting between two posts of the same date in the descending
key order has that same date: strings between two strings sharing a prefix
also carry the prefix, and the prefix decodes back to the date. -/
theorem date_between {a b c : Post} (hdac : dateOf a = dateOf c)
    (h1 : keyDesc loadSortKey a b) (h2 : keyDesc loadSortKey b c) :
    dateOf b = dateOf a := by
  have hdac2 : a.year = c.year ∧ a.month = c.month ∧ a.day = c.day := by
    have := hdac
    simp only [dateOf, Prod.mk.injEq] at this
    exact this
  have hkc : (loadSortKey c).data = dateStart a.year a.month a.day ++ c.title.data := by
    rw [key_data_split c, ← hdac2.1, ← hdac2.2.1, ← hdac2.2.2]
  have hka : (loadSortKey a).data = dateStart a.year a.month a.day ++ a.title.data :=
    key_data_split a
  unfold keyDesc at h1 h2
  rw [hkc] at h2
  rw [hka] at h1
  obtain ⟨s, hs⟩ := lexLt_sandwich h2 h1
  rw [key_data_split b] at hs
  obtain ⟨hy, hm2, hd2, -⟩ := dateStart_decode hs
  simp only [dateOf, Prod.mk.injEq]
  exact ⟨hy, hm2, hd2⟩

/-! ## Claim C2: uniqueness of the disambiguated timestamps -/

theorem dateOf_eq_iff {p q : Post} :
    dateOf p = dateOf q ↔ (p.year = q.year ∧ p.month = q.month ∧ p.day = q.day) := by
  simp [dateOf, Prod.mk.injEq]

theorem updated_eq_of_date_eq {p q : Post} (hp : OrigShaped p) (hq : OrigShaped q)
    (h : dateOf p = dateOf q) : p.updated = q.updated := by
  obtain ⟨hy, hm, hd⟩ := dateOf_eq_iff.mp h
  obtain ⟨-, hpu⟩ := origShaped_spec hp
  obtain ⟨-, hqu⟩ := origShaped_spec hq
  rw [hpu, hqu, hy, hm, hd]

theorem date_eq_of_updated_eq {p q : Post} (hp : OrigShaped p) (hq : OrigShaped q)
    (h : p.updated = q.updated) : dateOf p = dateOf q := by
  obtain ⟨-, hpu⟩ := origShaped_spec hp
  obtain ⟨-, hqu⟩ := origShaped_spec hq
  rw [hpu, hqu] at h
  obtain ⟨hy, hm, hd, -⟩ := renderClock_inj (by omega) (by omega) h
  exact dateOf_eq_iff.mpr ⟨hy, hm, hd⟩

theorem updateLoop_distinct (l : List Post) : ∀ (anchor : Post) (k : Nat) (out : List Post),
    OrigShaped anchor → (∀ p ∈ l, OrigShaped p) → 1 ≤ k →
    (anchor :: l).Pairwise (keyDesc loadSortKey) →
    updateLoop anchor k l = .ok out →
    out.Pairwise (fun a b => a.updated ≠ b.updated)
    ∧ (∀ p ∈ out, ∃ s, s < 60 ∧ p.updated = renderClock p.year p.month p.day s)
    ∧ (∀ p ∈ out, dateOf p = dateOf anchor →
        ∃ s, k ≤ s ∧ s < 60 ∧ p.updated = renderClock p.year p.month p.day s)
    ∧ (∀ p ∈ out, ∃ q ∈ l, dateOf p = dateOf q) := by
  induction l with
  | nil =>
    intro anchor k out _ _ _ _ h
    have h2 : Outcome.ok ([] : List Post) = Outcome.ok out := h
    injection h2 with h3
    rw [← h3]
    refine ⟨List.Pairwise.nil, ?_, ?_, ?_⟩ <;> intro p hp <;> cases hp
  | cons p rest ih =>
    intro anchor k out hanch hl hk hpair h
    have hp : OrigShaped p := hl p (List.mem_cons_self p rest)
    have hrest : ∀ q ∈ rest, OrigShaped q := fun q hq => hl q (List.mem_cons_of_mem p hq)
    rw [List.pairwise_cons] at hpair
    obtain ⟨hanchAll, htail⟩ := hpair
    have htail2 := htail
    rw [List.pairwise_cons] at htail2
    obtain ⟨hpAll, hrestPair⟩ := htail2
    unfold updateLoop at h
    by_cases hm : p.updated = anchor.updated
    · rw [if_pos hm] at h
      have hdate : dateOf p = dateOf anchor := date_eq_of_updated_eq hp hanch hm
      cases hset : set_updated p k with
      | ok p2 =>
        rw [hset] at h
        cases hrec : updateLoop anchor (k + 1) rest with
        | ok out2 =>
          rw [hrec] at h
          have h2 : Outcome.ok (p2 :: out2) = Outcome.ok out := h
          injection h2 with h3
          obtain ⟨-, hk60, hp2⟩ := set_updated_ok hset
          have hpairRec : (anchor :: rest).Pairwise (keyDesc loadSortKey) :=
            List.pairwise_cons.mpr
              ⟨fun z hz => hanchAll z (List.mem_cons_of_mem p hz), hrestPair⟩
          obtain ⟨ra, rb, rc, rd⟩ := ih anchor (k + 1) out2 hanch hrest (by omega) hpairRec hrec
          have hp2u : p2.updated = renderClock p2.year p2.month p2.day k := by rw [hp2]
          have hp2y : p2.year = p.year := by rw [hp2]
          have hp2m : p2.month = p.month := by rw [hp2]
          have hp2d : p2.day = p.day := by rw [hp2]
          have hp2date : dateOf p2 = dateOf p := by
            rw [dateOf_eq_iff]
            exact ⟨hp2y, hp2m, hp2d⟩
          obtain ⟨hpay, hpam, hpad⟩ := dateOf_eq_iff.mp hdate
          rw [← h3]
          refine ⟨?_, ?_, ?_, ?_⟩
          · refine List.pairwise_cons.mpr ⟨?_, ra⟩
            intro q hq heq
            obtain ⟨sq, hsq, hqu⟩ := rb q hq
            have heq2 : renderClock p2.year p2.month p2.day k
                = renderClock q.year q.month q.day sq := by
              rw [← hp2u, ← hqu]
              exact heq
            obtain ⟨hy, hmm, hdd, hss⟩ := renderClock_inj hk60 hsq heq2
            have hqdate : dateOf q = dateOf anchor := by
              rw [dateOf_eq_iff]
              refine ⟨by omega, by omega, by omega⟩
            obtain ⟨sq2, hsq2k, hsq2, hqu2⟩ := rc q hq hqdate
            rw [hqu] at hqu2
            obtain ⟨-, -, -, hss2⟩ := renderClock_inj hsq hsq2 hqu2
            omega
          · intro q hq
            rcases List.mem_cons.mp hq with hq | hq
            · exact ⟨k, hk60, by rw [hq]; exact hp2u⟩
            · exact rb q hq
          · intro q hq hqa
            rcases List.mem_cons.mp hq with hq | hq
            · exact ⟨k, le_refl k, hk60, by rw [hq]; exact hp2u⟩
            · obtain ⟨s, hs1, hs2, hs3⟩ := rc q hq hqa
              exact ⟨s, by omega, hs2, hs3⟩
          · intro q hq
            rcases List.mem_cons.mp hq with hq | hq
            · exact ⟨p, List.mem_cons_self p rest, by rw [hq]; exact hp2date⟩
            · obtain ⟨r, hr, hdr⟩ := rd q hq
              exact ⟨r, List.mem_cons_of_mem p hr, hdr⟩
        | err m => rw [hrec] at h; cases h
        | panicked => rw [hrec] at h; cases h
      | err m => rw [hset] at h; cases h
      | panicked => rw [hset] at h; cases h
    · rw [if_neg hm] at h
      have hBne : dateOf p ≠ dateOf anchor := fun hd =>
        hm (updated_eq_of_date_eq hp hanch hd)
      cases hrec : updateLoop p 1 rest with
      | ok out2 =>
        rw [hrec] at h
        have h2 : Outcome.ok (p :: out2) = Outcome.ok out := h
        injection h2 with h3
        obtain ⟨ra, rb, rc, rd⟩ := ih p 1 out2 hp hrest (le_refl 1) htail hrec
        obtain ⟨-, hpu⟩ := origShaped_spec hp
        rw [← h3]
        refine ⟨?_, ?_, ?_, ?_⟩
        · refine List.pairwise_cons.mpr ⟨?_, ra⟩
          intro q hq heq
          obtain ⟨sq, hsq, hqu⟩ := rb q hq
          have hinj := renderClock_inj (by omega : (0 : Nat) < 60) hsq (by
            rw [← hpu, ← hqu]
            exact heq)
          obtain ⟨hy, hmm, hdd, hss⟩ := hinj
          have hqdate : dateOf q = dateOf p := by
            rw [dateOf_eq_iff]
            refine ⟨?_, ?_, ?_⟩ <;> omega
          obtain ⟨sq2, hsq2k, hsq2, hqu2⟩ := rc q hq hqdate
          rw [hqu] at hqu2
          obtain ⟨-, -, -, hss2⟩ := renderClock_inj hsq hsq2 hqu2
          omega
        · intro q hq
          rcases List.mem_cons.mp hq with hq | hq
          · exact ⟨0, by omega, by rw [hq]; exact hpu⟩
          · exact rb q hq
        · intro q hq hqa
          exfalso
          rcases List.mem_cons.mp hq with hq | hq
          · exact hBne (by rw [← hq]; exact hqa)
          · obtain ⟨r, hr, hdr⟩ := rd q hq
            have hra : dateOf anchor = dateOf r := by rw [← hqa, hdr]
            have := date_between hra (hanchAll p (List.mem_cons_self p rest)) (hpAll r hr)
            exact hBne (by rw [this])
        · intro q hq
          rcases List.mem_cons.mp hq with hq | hq
          · exact ⟨p, List.mem_cons_self p rest, by rw [hq]⟩
          · obtain ⟨r, hr, hdr⟩ := rd q hq
            exact ⟨r, List.mem_cons_of_mem p hr, hdr⟩
      | err m => rw [hrec] at h; cases h
      | panicked => rw [hrec] at h; cases h

theorem updatePass_distinct {l out : List Post} (hl : ∀ p ∈ l, OrigShaped p)
    (hpair : l.Pairwise (keyDesc loadSortKey)) (h : updatePass l = .ok out) :
    out.Pairwise (fun a b => a.updated ≠ b.updated) := by
  cases l with
  | nil =>
    have h2 : Outcome.ok ([] : List Post) = Outcome.ok out := h
    injection h2 with h3
    rw [← h3]
    exact List.Pairwise.nil
  | cons p rest =>
    have h1 : (updateLoop p 1 rest).map (fun out2 => p :: out2) = Outcome.ok out := h
    cases hrec : updateLoop p 1 rest with
    | ok out2 =>
      rw [hrec] at h1
      have h2 : Outcome.ok (p :: out2) = Outcome.ok out := h1
      injection h2 with h3
      have hp : OrigShaped p := hl p (List.mem_cons_self p rest)
      obtain ⟨ra, rb, rc, -⟩ := updateLoop_distinct rest p 1 out2 hp
        (fun q hq => hl q (List.mem_cons_of_mem p hq)) (le_refl 1) hpair hrec
      obtain ⟨-, hpu⟩ := origShaped_spec hp
      rw [← h3]
      refine List.pairwise_cons.mpr ⟨?_, ra⟩
      intro q hq heq
      obtain ⟨sq, hsq, hqu⟩ := rb q hq
      have hinj := renderClock_inj (by omega : (0 : Nat) < 60) hsq (by
        rw [← hpu, ← hqu]
        exact heq)
      obtain ⟨hy, hmm, hdd, hss⟩ := hinj
      have hqdate : dateOf q = dateOf p := by
        rw [dateOf_eq_iff]
        refine ⟨?_, ?_, ?_⟩ <;> omega
      obtain ⟨sq2, hsq2k, hsq2, hqu2⟩ := rc q hq hqdate
      rw [hqu] at hqu2
      obtain ⟨-, -, -, hss2⟩ := renderClock_inj hsq hsq2 hqu2
      omega
    | err m => rw [hrec] at h1; cases h1
    | panicked => rw [hrec] at h1; cases h1

theorem origShaped_of_noSY {p q : Post} (h : noSY p = noSY q) (hq : OrigShaped q) :
    OrigShaped p := by
  have hy := congrArg (fun t => t.2.2.2.1) h
  have hm := congrArg (fun t => t.2.2.2.2.1) h
  have hd := congrArg (fun t => t.2.2.2.2.2.1) h
  have hu := congrArg (fun t => t.2.2.2.2.2.2.2.2.2) h
  simp only [noSY] at hy hm hd hu
  unfold OrigShaped at hq ⊢
  rw [hy, hm, hd, hu]
  exact hq

theorem shaped_of_map_noSY {l1 l2 : List Post} (h : l1.map noSY = l2.map noSY)
    (h2 : ∀ p ∈ l2, OrigShaped p) : ∀ p ∈ l1, OrigShaped p := by
  intro p hp
  have hmem : noSY p ∈ l2.map noSY := by
    rw [← h]
    exact List.mem_map_of_mem _ hp
  obtain ⟨q, hq, hqe⟩ := List.mem_map.mp hmem
  exact origShaped_of_noSY hqe.symm (h2 q hq)

theorem loadSortKey_of_noSY {a b : Post} (h : noSY a = noSY b) :
    loadSortKey a = loadSortKey b := by
  have hy := congrArg (fun t => t.2.2.2.1) h
  have hm := congrArg (fun t => t.2.2.2.2.1) h
  have hd := congrArg (fun t => t.2.2.2.2.2.1) h
  have ht := congrArg (fun t => t.2.1) h
  simp only [noSY] at hy hm hd ht
  unfold loadSortKey
  rw [hy, hm, hd, ht]

theorem pairwise_keyDesc_of_map_noSY {l1 l2 : List Post} (h : l1.map noSY = l2.map noSY)
    (hp : l2.Pairwise (keyDesc loadSortKey)) : l1.Pairwise (keyDesc loadSortKey) := by
  have hp2 : l2.Pairwise (fun a b =>
      ∀ a2 b2 : Post, noSY a2 = noSY a → noSY b2 = noSY b → keyDesc loadSortKey a2 b2) := by
    refine hp.imp ?_
    intro a b hab a2 b2 ha hb
    show lexLt (loadSortKey a2).data (loadSortKey b2).data = false
    rw [loadSortKey_of_noSY ha, loadSortKey_of_noSY hb]
    exact hab
  have hp3 : (l2.map noSY).Pairwise (fun u v =>
      ∀ a2 b2 : Post, noSY a2 = u → noSY b2 = v → keyDesc loadSortKey a2 b2) :=
    List.pairwise_map.mpr hp2
  rw [← h] at hp3
  have hp4 : l1.Pairwise (fun a b =>
      ∀ a2 b2 : Post, noSY a2 = noSY a → noSY b2 = noSY b → keyDesc loadSortKey a2 b2) :=
    List.pairwise_map.mp hp3
  refine hp4.imp ?_
  intro a b hab
  exact hab a b rfl rfl

/-- C2: for any successful assembly of parser-produced posts, the final
post list carries pairwise distinct `updatedAt` values (equal dates sort
contiguously, and the disambiguation pass shifts each run by distinct
seconds); the example blog also shows that `publishedAt` values may still
collide. -/
theorem c2_updated_unique (mf : Manifest) (posts : List Post) (blog : Blog)
    (hl : ∀ p ∈ posts, OrigShaped p) (h : blogLoad mf posts = .ok blog) :
    blog.posts.Pairwise (fun a b => a.updated ≠ b.updated)
    ∧ ∃ a ∈ exBlogABC.posts, ∃ b ∈ exBlogABC.posts, a ≠ b ∧ a.published = b.published := by
  obtain ⟨p0, rest, final, hs, hu, hb⟩ := blogLoad_ok h
  subst hb
  constructor
  · show final.Pairwise (fun a b => a.updated ≠ b.updated)
    have hsortedShaped : ∀ p ∈ (sortByKey loadSortKey posts).reverse, OrigShaped p := by
      intro p hp
      rw [List.mem_reverse] at hp
      exact hl p ((sortByKey_perm loadSortKey posts).mem_iff.mp hp)
    have hsortedPair := sorted_reverse_pairwise loadSortKey posts
    rw [hs] at hsortedShaped hsortedPair
    have hmap := showYearPass_map_noSY (p0 :: rest)
    exact updatePass_distinct (shaped_of_map_noSY hmap hsortedShaped)
      (pairwise_keyDesc_of_map_noSY hmap hsortedPair) hu
  · decide

/-- C2 witness: the invariant applied to the three example posts, two of
which share the date 2021-05-05. -/
theorem c2_updated_unique_witness :
    (∀ p ∈ [exPostC, exPostA, exPostB], OrigShaped p) ∧
      exBlogABC.posts.Pairwise (fun a b => a.updated ≠ b.updated) :=
  ⟨by decide, (c2_updated_unique ⟨"t", "i"⟩ [exPostC, exPostA, exPostB] exBlogABC
    (by decide) (by decide)).1⟩

/-! ## Claim C1: the display order and its key -/

theorem loadSortKey_of_skel {a b : Post} (h : skel a = skel b) :
    loadSortKey a = loadSortKey b := by
  have hy := congrArg PostSkel.year h
  have hm := congrArg PostSkel.month h
  have hd := congrArg PostSkel.day h
  have ht := congrArg PostSkel.title h
  simp only [skel] at hy hm hd ht
  unfold loadSortKey
  rw [hy, hm, hd, ht]

theorem pairwise_keyDesc_of_map_skel {l1 l2 : List Post} (h : l1.map skel = l2.map skel)
    (hp : l2.Pairwise (keyDesc loadSortKey)) : l1.Pairwise (keyDesc loadSortKey) := by
  have hp2 : l2.Pairwise (fun a b =>
      ∀ a2 b2 : Post, skel a2 = skel a → skel b2 = skel b → keyDesc loadSortKey a2 b2) := by
    refine hp.imp ?_
    intro a b hab a2 b2 ha hb
    show lexLt (loadSortKey a2).data (loadSortKey b2).data = false
    rw [loadSortKey_of_skel ha, loadSortKey_of_skel hb]
    exact hab
  have hp3 : (l2.map skel).Pairwise (fun u v =>
      ∀ a2 b2 : Post, skel a2 = u → skel b2 = v → keyDesc loadSortKey a2 b2) :=
    List.pairwise_map.mpr hp2
  rw [← h] at hp3
  have hp4 : l1.Pairwise (fun a b =>
      ∀ a2 b2 : Post, skel a2 = skel a → skel b2 = skel b → keyDesc loadSortKey a2 b2) :=
    List.pairwise_map.mp hp3
  refine hp4.imp ?_
  intro a b hab
  exact hab a b rfl rfl

theorem keyDesc_title {a b : Post} (hab : keyDesc loadSortKey a b)
    (hd : dateOf a = dateOf b) : lexLt a.title.data b.title.data = false := by
  unfold keyDesc at hab
  rw [key_data_split a, key_data_split b] at hab
  obtain ⟨hy, hm, hd2⟩ := dateOf_eq_iff.mp hd
  rw [hy, hm, hd2] at hab
  rwa [lexLt_append_cancel] at hab

/-- C1 counterexample: with two same-date posts whose header titles order
oppositely to their filename-derived slugs, the assembler's display order
disagrees with the order obtained from the claimed slug-based key — the
code sorts by the header title, not the slug. -/
theorem c1_counterexample :
    blogLoad ⟨"t", "i"⟩ [exPostX, exPostY] = .ok exBlogXY
    ∧ exBlogXY.posts.map skel ≠ (specSlugOrder [exPostX, exPostY]).map skel := by
  constructor
  · decide
  · decide

/-- C1 amended: the final display order equals the order obtained by
computing the string key "{year}-{month:02}-{day:02}-{title}" per post
(the last component being the header title, not the slug), sorting
ascending by that key and reversing the whole sequence; in particular,
among posts of equal date, the post with the lexicographically higher
title never comes after a lower one. -/
theorem c1_title_key_order (mf : Manifest) (posts : List Post) (blog : Blog)
    (h : blogLoad mf posts = .ok blog) :
    blog.posts.map skel = (specTitleOrder posts).map skel
    ∧ blog.posts.Pairwise (fun a b => dateOf a = dateOf b →
        lexLt a.title.data b.title.data = false) := by
  obtain ⟨p0, rest, final, hs, hu, hb⟩ := blogLoad_ok h
  subst hb
  have h1 := updatePass_map_view _ _ hu
  have h2 : final.map skel = (showYearPass (p0 :: rest)).map skel :=
    map_comp_of_map_eq Prod.fst h1
  have h3 := showYearPass_map_noSY (p0 :: rest)
  have h4 : (showYearPass (p0 :: rest)).map skel = (p0 :: rest).map skel :=
    map_comp_of_map_eq (fun u => (⟨u.1, u.2.1, u.2.2.1, u.2.2.2.1, u.2.2.2.2.1, u.2.2.2.2.2.1,
      u.2.2.2.2.2.2.1, u.2.2.2.2.2.2.2.1, u.2.2.2.2.2.2.2.2.1⟩ : PostSkel)) h3
  have hskel : final.map skel = ((sortByKey loadSortKey posts).reverse).map skel := by
    rw [h2, h4, hs]
  constructor
  · show final.map skel = (specTitleOrder posts).map skel
    rw [hskel]
    rfl
  · show final.Pairwise (fun a b => dateOf a = dateOf b →
      lexLt a.title.data b.title.data = false)
    have hpair := pairwise_keyDesc_of_map_skel hskel (sorted_reverse_pairwise loadSortKey posts)
    refine hpair.imp ?_
    intro a b hab hd
    exact keyDesc_title hab hd

/-- C1 witness: the amended order applied to the crossed example posts. -/
theorem c1_title_key_order_witness :
    exBlogXY.posts.map skel = (specTitleOrder [exPostX, exPostY]).map skel
    ∧ exBlogXY.posts.Pairwise (fun a b => dateOf a = dateOf b →
        lexLt a.title.data b.title.data = false) :=
  c1_title_key_order ⟨"t", "i"⟩ [exPostX, exPostY] exBlogXY (by decide)
